import Mathlib

/-!
A verification development for the core of the Trieste term-rewriting engine
(`src/include/trieste/ast.h`, `src/include/trieste/rewrite.h`,
`src/include/trieste/pass.h`).

The C++ tree is a graph of reference-counted `NodeDef` objects with raw
parent back-pointers.  We embed it as a purely functional tree: a node keeps
its token, location, two propagation flags, an optional symbol table and its
list of children.  The parent pointer is represented in two ways:
 * inside a tree, the parent of a child is its position (a path of child
   indices from the root), so pointer walks become path manipulations;
 * the single bit of parent information a detached mutator needs -
   "is this child's `parent_` equal to the node whose child list holds it" -
   is kept on the child as the `owned` flag (`push_back` sets `parent_`,
   `push_back_ephemeral` does not).
Mutating member functions become functions from the tree (or from a root
tree plus the path of the receiver) to the new tree.  Code whose C++
execution is not guaranteed to terminate (the pass executor's scan loop,
`PassDef::lift`, pattern repetition) is embedded with an explicit fuel
parameter; `none` means the fuel ran out or undefined behaviour
(an iterator dereference past the end, `front()` of an empty vector) was
reached.
-/

namespace Trieste

/-- Modelled from the spec, section 3 "Token" (the file `token.h` is not under
`src/`): a token is a process-wide constant identified by identity and
carrying a bitset of capability flags.  Distinct registered tokens are
distinct values, so identity comparison becomes structural equality. -/
structure Tok where
  id : Nat
  fPrint : Bool := false
  fSymtab : Bool := false
  fDefbeforeuse : Bool := false
  fShadowing : Bool := false
  fLookup : Bool := false
  fLookdown : Bool := false
deriving DecidableEq, Repr

/-- The built-in `Error` token (`type_ == Error` tests in `ast.h`). -/
def ErrorTok : Tok := { id := 0 }

/-- The built-in `Lift` token. -/
def LiftTok : Tok := { id := 1 }

/-- The built-in `Seq` token (splicing effects in `pass.h`). -/
def SeqTok : Tok := { id := 2 }

/-- The built-in `NoChange` token (ineffective rule results in `pass.h`). -/
def NoChangeTok : Tok := { id := 3 }

/-- The built-in `Top` token. -/
def TopTok : Tok := { id := 4, fSymtab := true }

/-- Modelled from the spec, section 3 "Location" (the file `source.h` is not
under `src/`): a pair of a source buffer handle and a byte range; synthetic
locations have no buffer.  We keep the buffer handle abstract as an optional
number.  `NodeDef::set_location` only tests whether the buffer handle is
null, which this model supports exactly. -/
structure TLoc where
  source : Option Nat := none
  first : Nat := 0
  len : Nat := 0
deriving DecidableEq, Repr

/-- Modelled from the spec, section 3: the span-union operator `*` returns
the smallest range containing both operands.  The spec does not say what
happens for distinct buffers; we keep the left operand's buffer.  No claim
in this development depends on the value computed here, only on the fact
that `set_location` is guarded by `source`. -/
def TLoc.union (a b : TLoc) : TLoc :=
  if a.source = b.source then
    { source := a.source
      first := min a.first b.first
      len := max (a.first + a.len) (b.first + b.len) - min a.first b.first }
  else a

/-- `SymtabDef` (`ast.h`): the map from `Location` keys to the list of bound
nodes, plus the ordered include list.  Bound nodes are shared references in
C++; here they are stored as paths (lists of child indices) from the tree
root, which is how the model names a node.  The map is kept as an
association list in insertion order; all uses in the claims access it
through `find`, for which the representation is equivalent. -/
structure Symtab where
  symbols : List (TLoc × List (List Nat)) := []
  includes : List (List Nat) := []
deriving DecidableEq, Repr

/-- `NodeDef` (`ast.h`): token, location, the two `Flags` bits
(`contains_error`, `contains_lift`), the optional symbol table, and the
children.  `owned` models `parent_`: it is true when the node's `parent_`
points at the node whose child list currently holds it (every owning
mutator sets it; `push_back_ephemeral` leaves it alone). -/
inductive TNode where
  | mk (tag : Tok) (loc : TLoc) (owned ce cl : Bool) (st : Option Symtab)
      (kids : List TNode)
deriving Repr

def TNode.tag : TNode → Tok
  | .mk tg _ _ _ _ _ _ => tg

def TNode.loc : TNode → TLoc
  | .mk _ l _ _ _ _ _ => l

def TNode.owned : TNode → Bool
  | .mk _ _ ow _ _ _ _ => ow

def TNode.ce : TNode → Bool
  | .mk _ _ _ e _ _ _ => e

def TNode.cl : TNode → Bool
  | .mk _ _ _ _ l _ _ => l

def TNode.st : TNode → Option Symtab
  | .mk _ _ _ _ _ s _ => s

def TNode.kids : TNode → List TNode
  | .mk _ _ _ _ _ _ ks => ks

def TNode.withKids : TNode → List TNode → TNode
  | .mk tg l ow e cl s _, ks => .mk tg l ow e cl s ks

def TNode.withOwned : TNode → Bool → TNode
  | .mk tg l _ e cl s ks, ow => .mk tg l ow e cl s ks

def TNode.withCe : TNode → Bool → TNode
  | .mk tg l ow _ cl s ks, e => .mk tg l ow e cl s ks

def TNode.withCl : TNode → Bool → TNode
  | .mk tg l ow e _ s ks, c => .mk tg l ow e c s ks

def TNode.withSt : TNode → Option Symtab → TNode
  | .mk tg l ow e cl _ ks, s => .mk tg l ow e cl s ks

def TNode.withLoc : TNode → TLoc → TNode
  | .mk tg _ ow e cl s ks, l => .mk tg l ow e cl s ks

instance : Inhabited TNode := ⟨.mk { id := 1000 } {} false false false none []⟩

/-- A fresh node as produced by `NodeDef::create`: no children, clear flags,
no parent; a symbol table exactly when the token has `flag::symtab`. -/
def createNode (tg : Tok) (l : TLoc := {}) : TNode :=
  .mk tg l false false false (if tg.fSymtab then some {} else none) []

/-- Structural equality of the model trees, needed because `TNode` is a
nested inductive for which `deriving DecidableEq` is not available. -/
def TNode.beq : TNode → TNode → Bool
  | .mk tg l ow e cl s ks, .mk tg2 l2 ow2 e2 cl2 s2 ks2 =>
    tg == tg2 && l == l2 && ow == ow2 && e == e2 && cl == cl2 && s == s2 &&
      beqList ks ks2
where
  beqList : List TNode → List TNode → Bool
  | [], [] => true
  | a :: as, b :: bs => TNode.beq a b && beqList as bs
  | _, _ => false

instance : BEq TNode := ⟨TNode.beq⟩

/-- The node a path points at, if the path is valid (`[]` is the root,
`i :: p` descends into child `i`).  This is how the model dereferences a
C++ node pointer. -/
def nodeAt : TNode → List Nat → Option TNode
  | t, [] => some t
  | t, i :: p =>
    match t.kids.get? i with
    | some c => nodeAt c p
    | none => none

/-- Rebuild the tree with child `i` replaced (plain vector write). -/
def TNode.setKid (t : TNode) (i : Nat) (c : TNode) : TNode :=
  t.withKids (t.kids.set i c)

/-- Apply `f` to the node a path points at, rebuilding the spine. -/
def updateAt : TNode → List Nat → (TNode → TNode) → Option TNode
  | t, [], f => some (f t)
  | t, i :: p, f =>
    match t.kids.get? i with
    | some c =>
      match updateAt c p f with
      | some c2 => some (t.setKid i c2)
      | none => none
    | none => none

/-- Does some descendant-or-self carry tag `tg`?  (Used to state the flag
invariants; `errSelf` below is the `Error` instance.) -/
def hasTagSelf (tg : Tok) : TNode → Bool
  | .mk tg2 _ _ _ _ _ ks => tg2 == tg || hasTagList tg ks
where
  hasTagList (tg : Tok) : List TNode → Bool
  | [] => false
  | k :: ks => hasTagSelf tg k || hasTagList tg ks

/-- Some descendant-or-self is tagged `Error`. -/
def errSelf (t : TNode) : Bool := hasTagSelf ErrorTok t

/-- Some strict descendant is tagged `Error`. -/
def errStrict (t : TNode) : Bool := hasTagSelf.hasTagList ErrorTok t.kids

/-- Some descendant-or-self is tagged `Lift`. -/
def liftSelf (t : TNode) : Bool := hasTagSelf LiftTok t

/-- Some strict descendant is tagged `Lift`. -/
def liftStrict (t : TNode) : Bool := hasTagSelf.hasTagList LiftTok t.kids

/-! ### `NodeDef::add_flags` and the owning mutators

`add_flags` walks from `parent_` towards the root, setting one of the two
flags, and stops at the first ancestor that already has it.  In the path
model the walk becomes a bottom-up pass over the path of the parent: the
boolean returned by `propagateFlag` says whether the walk is still running
when it leaves the current subtree. -/

/-- The ancestor walk of `add_flags` for one flag: `get`/`set` read and
write the flag, `p` is the path from `t` down to the node where the walk
starts (the new child's parent).  Stops at the first node where the flag
is already set. -/
def propagateFlag (get : TNode → Bool) (set : TNode → TNode) :
    TNode → List Nat → TNode × Bool
  | t, [] => if get t then (t, false) else (set t, true)
  | t, i :: p =>
    match t.kids.get? i with
    | none => (t, false)
    | some c =>
      let r := propagateFlag get set c p
      let t1 := t.setKid i r.1
      if r.2 then
        if get t1 then (t1, false) else (set t1, true)
      else (t1, false)

/-- `NodeDef::add_flags` for a child `c` just attached below the node at
path `p` in `root`: the error branch runs when the child is tagged `Error`
or already carries `contains_error`; otherwise the lift branch runs when
the child is tagged `Lift` or carries `contains_lift` (note the `else if`
in the source: only one of the two flags is ever propagated per call). -/
def addFlagsAt (root : TNode) (p : List Nat) (c : TNode) : TNode :=
  if c.tag == ErrorTok || c.ce then
    (propagateFlag TNode.ce (fun n => n.withCe true) root p).1
  else if c.tag == LiftTok || c.cl then
    (propagateFlag TNode.cl (fun n => n.withCl true) root p).1
  else root

/-- `NodeDef::push_back` on the node at path `p`: append the child, set its
parent, then `add_flags`. -/
def pushBackAt (root : TNode) (p : List Nat) (c : TNode) : Option TNode :=
  match updateAt root p (fun n => n.withKids (n.kids ++ [c.withOwned true])) with
  | some r => some (addFlagsAt r p c)
  | none => none

/-- `NodeDef::push_front` on the node at path `p`. -/
def pushFrontAt (root : TNode) (p : List Nat) (c : TNode) : Option TNode :=
  match updateAt root p (fun n => n.withKids (c.withOwned true :: n.kids)) with
  | some r => some (addFlagsAt r p c)
  | none => none

/-- `NodeDef::insert(pos, node)` on the node at path `p`; `none` when the
iterator `pos` would be invalid. -/
def insertChildAt (root : TNode) (p : List Nat) (pos : Nat) (c : TNode) :
    Option TNode :=
  match nodeAt root p with
  | none => none
  | some n =>
    if pos ≤ n.kids.length then
      match
        updateAt root p
          (fun n => n.withKids (n.kids.insertIdx pos (c.withOwned true))) with
      | some r => some (addFlagsAt r p c)
      | none => none
    else none

/-- `NodeDef::push_back_ephemeral` on the node at path `p`: append the
child without touching its parent pointer and without `add_flags`. -/
def pushBackEphAt (root : TNode) (p : List Nat) (c : TNode) : Option TNode :=
  updateAt root p (fun n => n.withKids (n.kids ++ [c]))

/-- `NodeDef::replace(node1, node2)` on the node at path `p`, with `node1`
identified by its index `i` (`replace_at`): swap in `c` (transferring
parenthood and running `add_flags`), or erase the child when `c` is absent.
`none` models the `Node not found` failure. -/
def replaceChildAt (root : TNode) (p : List Nat) (i : Nat)
    (c : Option TNode) : Option TNode :=
  match nodeAt root p with
  | none => none
  | some n =>
    if i < n.kids.length then
      match c with
      | some c2 =>
        match updateAt root p (fun n => n.setKid i (c2.withOwned true)) with
        | some r => some (addFlagsAt r p c2)
        | none => none
      | none =>
        updateAt root p (fun n => n.withKids (n.kids.eraseIdx i))
    else none

/-- One owning mutation, for stating invariants over mutation sequences. -/
inductive BuildOp where
  | pushBack (p : List Nat) (c : TNode)
  | pushFront (p : List Nat) (c : TNode)
  | insertChild (p : List Nat) (pos : Nat) (c : TNode)
deriving Repr

/-- The subtree an operation attaches. -/
def BuildOp.payload : BuildOp → TNode
  | .pushBack _ c => c
  | .pushFront _ c => c
  | .insertChild _ _ c => c

def buildStep (t : TNode) : BuildOp → Option TNode
  | .pushBack p c => pushBackAt t p c
  | .pushFront p c => pushFrontAt t p c
  | .insertChild p pos c => insertChildAt t p pos c

/-- Run a sequence of owning mutations. -/
def buildRun (t : TNode) : List BuildOp → Option TNode
  | [] => some t
  | op :: ops =>
    match buildStep t op with
    | some t2 => buildRun t2 ops
    | none => none

/-- The flag invariant the code actually maintains under the owning
mutators, at every node of the tree: `contains_error` holds exactly when
some strict descendant is tagged `Error`, and `contains_lift` only ever
holds when some strict descendant is tagged `Lift` (the converse fails:
attaching a subtree that contains both markers propagates only the error
flag). -/
def flagInv : TNode → Bool
  | .mk tg l ow e cl s ks =>
    (e == hasTagSelf.hasTagList ErrorTok ks) &&
      (!cl || hasTagSelf.hasTagList LiftTok ks) &&
      flagInvList ks
where
  flagInvList : List TNode → Bool
  | [] => true
  | k :: ks => flagInv k && flagInvList ks

/-- `NodeDef::pop_back`: the removed child (with its parent pointer cleared
exactly when it pointed at the receiver) and the updated receiver; the
first component is `none` when there are no children. -/
def popBack (n : TNode) : Option TNode × TNode :=
  match n.kids.getLast? with
  | none => (none, n)
  | some k =>
    (some (if k.owned then k.withOwned false else k),
      n.withKids n.kids.dropLast)

/-! ### Scopes, geometric predicates, `bind` and `lookup` -/

/-- The parent walk of `NodeDef::scope` (the `steps` argument only forces
structural termination; the walk strictly shortens the path, so
`p.length` steps always suffice). -/
def scopeGoF : Nat → TNode → List Nat → Option (List Nat)
  | 0, _, _ => none
  | steps + 1, root, p =>
    if p = [] then none
    else
      match nodeAt root p.dropLast with
      | some n =>
        if n.st.isSome then some p.dropLast
        else scopeGoF steps root p.dropLast
      | none => none

/-- `NodeDef::scope`: the nearest strict ancestor owning a symbol table,
as a path; `none` when there is none (or when the path is invalid). -/
def scopePath (root : TNode) (p : List Nat) : Option (List Nat) :=
  scopeGoF p.length root p

/-- The loop of `NodeDef::same_parent` (the `steps` argument only forces
structural termination; every iteration shortens at least one path, so
`a.length + b.length + 1` steps always suffice). -/
def sameParentGoF : Nat → List Nat → List Nat → List Nat × List Nat
  | 0, a, b => (a, b)
  | steps + 1, a, b =>
    if a.dropLast = b.dropLast then (a, b)
    else sameParentGoF steps a.dropLast b.dropLast

/-- `NodeDef::same_parent`: equalize the depths of the two nodes, then walk
both upward in lockstep until their parents coincide.  On paths: equalizing
depth truncates the longer path, walking up drops the last index. -/
def sameParentGo (a b : List Nat) : List Nat × List Nat :=
  sameParentGoF (a.length + b.length + 1) a b

/-- `NodeDef::precedes`: neither node dominates the other and the first
sits at a smaller index below the common parent.  The index of a node in
its parent's child list is the last entry of its path. -/
def precedesPath (a b : List Nat) : Bool :=
  let m := min a.length b.length
  let pq := sameParentGo (a.take m) (b.take m)
  if pq.1 == pq.2 then false
  else decide (pq.1.getLastD 0 < pq.2.getLastD 0)

/-- Find the entry for a key in the symbol map (`symbols.find(loc)`). -/
def symFind (s : Symtab) (key : TLoc) : Option (List (List Nat)) :=
  match s.symbols.find? (fun e => e.1 == key) with
  | some e => some e.2
  | none => none

/-- `symbols[loc].push_back(node)`: append to the entry for the key,
creating the entry when absent. -/
def symInsert (s : Symtab) (key : TLoc) (b : List Nat) : Symtab :=
  { s with
    symbols :=
      if (s.symbols.find? (fun e => e.1 == key)).isSome then
        s.symbols.map (fun e => if e.1 == key then (e.1, e.2 ++ [b]) else e)
      else s.symbols ++ [(key, [b])] }

/-- Does the node a binding path points at carry `flag::shadowing`? -/
def shadowAt (root : TNode) (b : List Nat) : Bool :=
  match nodeAt root b with
  | some n => n.tag.fShadowing
  | none => false

/-- Does the node a binding path points at carry `flag::lookup`? -/
def lookupFlagAt (root : TNode) (b : List Nat) : Bool :=
  match nodeAt root b with
  | some n => n.tag.fLookup
  | none => false

inductive AstErr where
  | noScope
  | notFound
deriving DecidableEq, Repr

/-- `NodeDef::bind(loc)` for the node at path `p`: find the enclosing
scope (`No symbol table` failure when there is none), append `p` to the
scope's entry for `loc`, and report `true` unless the entry now holds more
than one binding of which some carries `flag::shadowing`. -/
def bindF (root : TNode) (p : List Nat) (key : TLoc) :
    Except AstErr (Bool × TNode) :=
  match scopePath root p with
  | none => .error .noScope
  | some q =>
    match updateAt root q
        (fun n =>
          match n.st with
          | some s => n.withSt (some (symInsert s key p))
          | none => n) with
    | none => .error .notFound
    | some root2 =>
      let entry :=
        match nodeAt root2 q with
        | some n => (symFind (n.st.getD {}) key).getD []
        | none => []
      .ok
        ((entry.length == 1) ||
            !(entry.any (fun b => shadowAt root2 b)),
          root2)

/-- The return value of a `bindF` call, when it succeeded. -/
def bindRet (r : Except AstErr (Bool × TNode)) : Option Bool :=
  match r with
  | .ok (b, _) => some b
  | .error _ => none

/-- The tree after a `bindF` call, when it succeeded. -/
def bindTree (r : Except AstErr (Bool × TNode)) : Option TNode :=
  match r with
  | .ok (_, t) => some t
  | .error _ => none

/-- The loop of `NodeDef::lookup`: `q?` is the scope about to be searched,
`acc` the accumulated result.  At each scope the entry for the key is
filtered by the predicate of the source (`flag::lookup`, and under
`flag::defbeforeuse` also `n->precedes(this)`), the includes are appended,
and the walk stops when this scope is the `until` limit or any collected
node carries `flag::shadowing`.  The `fuel` argument only forces
termination; `selfP.length` always suffices because scopes are strict
ancestors. -/
def lookupGo (root : TNode) (selfP : List Nat) (key : TLoc)
    (lim : Option (List Nat)) : Nat → Option (List Nat) →
    List (List Nat) → List (List Nat)
  | _, none, acc => acc
  | 0, some _, acc => acc
  | fuel + 1, some q, acc =>
    match nodeAt root q with
    | none => acc
    | some stN =>
      let entry := (symFind (stN.st.getD {}) key).getD []
      let filtered := entry.filter (fun b =>
        lookupFlagAt root b &&
          (!stN.tag.fDefbeforeuse || precedesPath b selfP))
      let acc2 := acc ++ filtered ++ (stN.st.getD {}).includes
      if (some q == lim) || acc2.any (fun b => shadowAt root b) then acc2
      else lookupGo root selfP key lim fuel (scopePath root q) acc2

/-- `NodeDef::lookup(until)`: upward name resolution from the node at path
`p`, keyed by that node's own location. -/
def lookupF (root : TNode) (p : List Nat) (lim : Option (List Nat)) :
    List (List Nat) :=
  match nodeAt root p with
  | none => []
  | some selfN => lookupGo root p selfN.loc lim p.length (scopePath root p) []

/-- The loop of upward lookup as the specification words it: at each scope
collect exactly the bindings for the key whose tag has the `lookup` flag,
restricted - when the scope's tag has `defbeforeuse` - to bindings that
precede the looking node; then append all of that scope's includes
unconditionally; stop exactly when the scope just processed is the limit
or some collected node has the `shadowing` flag. -/
def lookupSpecGo (root : TNode) (selfP : List Nat) (key : TLoc)
    (lim : Option (List Nat)) : Nat → Option (List Nat) →
    List (List Nat) → List (List Nat)
  | _, none, acc => acc
  | 0, some _, acc => acc
  | fuel + 1, some q, acc =>
    match nodeAt root q with
    | none => acc
    | some stN =>
      let entry := (symFind (stN.st.getD {}) key).getD []
      let withLookup := entry.filter (fun b => lookupFlagAt root b)
      let restricted :=
        if stN.tag.fDefbeforeuse then
          withLookup.filter (fun b => precedesPath b selfP)
        else withLookup
      let collected := acc ++ restricted ++ (stN.st.getD {}).includes
      if some q == lim then collected
      else if collected.any (fun b => shadowAt root b) then collected
      else lookupSpecGo root selfP key lim fuel (scopePath root q) collected

/-- Upward lookup as the specification words it. -/
def lookupSpecF (root : TNode) (p : List Nat) (lim : Option (List Nat)) :
    List (List Nat) :=
  match nodeAt root p with
  | none => []
  | some selfN =>
    lookupSpecGo root p selfN.loc lim p.length (scopePath root p) []

/-! ### `Match` and the pattern combinators (`rewrite.h`)

A cursor is an index into the child list of some node; a captured range
remembers the child list together with its bounds.  The ancestor chain the
zero-width predicates consult through `parent_` is passed to `matchF` as a
list (innermost ancestor - the owner of the child list - first), which is
what the parent pointers of an owned tree denote. -/

/-- A captured `NodeRange`: the child list the iterators point into and
the two indices. -/
structure CapRange where
  ctx : List TNode
  first : Nat
  last : Nat

/-- The `Match` object: the per-pass top node, the `captures_set` bit and
the capture map (an association list keyed by token). -/
structure MatchSt where
  top : TNode
  capturesSet : Bool := false
  captures : List (Tok × CapRange) := []

/-- `Match::reset`: drop all captures, but only when `captures_set` says
there might be some. -/
def MatchSt.reset (m : MatchSt) : MatchSt :=
  if m.capturesSet then { m with captures := [], capturesSet := false }
  else m

/-- `Match::operator+=`: mark `captures_set` and `std::map::insert` the
other map's entries - entries whose key is already present are NOT
overwritten. -/
def MatchSt.add (m that : MatchSt) : MatchSt :=
  { m with
    capturesSet := true
    captures :=
      m.captures ++
        that.captures.filter
          (fun e => !(m.captures.any (fun e2 => e2.1 == e.1))) }

/-- `match[name] = range` (`std::map::operator[]` plus assignment):
overwrite the entry for the key, creating it when absent. -/
def MatchSt.setCap (m : MatchSt) (name : Tok) (r : CapRange) : MatchSt :=
  { m with
    captures :=
      if m.captures.any (fun e => e.1 == name) then
        m.captures.map (fun e => if e.1 == name then (name, r) else e)
      else m.captures ++ [(name, r)] }

/-- `Match::operator()(token)`: the first node of the capture under the
token, `null` when the token has no entry or the entry's first iterator
does not hold a node.  `std::map::find` does not modify the map, which the
returned second component records. -/
def MatchSt.readNode (m : MatchSt) (t : Tok) : Option TNode × MatchSt :=
  match m.captures.find? (fun e => e.1 == t) with
  | some e =>
    match e.2.ctx.get? e.2.first with
    | some n => (some n, m)
    | none => (none, m)
  | none => (none, m)

/-- The tokens under which a capture was ever recorded. -/
def MatchSt.keys (m : MatchSt) : List Tok := m.captures.map (fun e => e.1)

/-- The pattern AST built by the combinator DSL of `rewrite.h`.  Each
constructor is one `PatternDef` subclass; `inside` and `insideN` carry
their `any` mode bit, regexes and rule actions are abstract boolean
functions. -/
inductive Patn where
  | anyP
  | tokT (t : Tok)
  | regexT (t : Tok) (re : TLoc → Bool)
  | opt (p : Patn)
  | rep (p : Patn)
  | notP (p : Patn)
  | seqP (p q : Patn)
  | choice (p q : Patn)
  | inside (t : Tok) (any : Bool)
  | insideN (ts : List Tok) (any : Bool)
  | firstP
  | lastP
  | childrenP (p q : Patn)
  | pred (p : Patn)
  | negPred (p : Patn)
  | action (f : List TNode → Nat → Nat → Bool) (p : Patn)
  | cap (name : Tok) (p : Patn)

/-- `PatternDef::custom_rep`: the subclasses that override it to `true`. -/
def customRep : Patn → Bool
  | .rep _ => true
  | .inside _ _ => true
  | .insideN _ _ => true
  | .firstP => true
  | .lastP => true
  | .pred _ => true
  | .negPred _ => true
  | _ => false

/-- `PatternDef::set_in_rep`: a no-op except for `Inside` and `InsideN`,
which switch to any-ancestor mode. -/
def setInRep : Patn → Patn
  | .inside t _ => .inside t true
  | .insideN ts _ => .insideN ts true
  | p => p

/-- The net effect of the `Rep` constructor in the source.  The
constructor body reads

  Rep(P pattern) : pattern(pattern) { pattern.set_in_rep(); }

where the unqualified name `pattern` in the body denotes the constructor
PARAMETER (which shadows the member), so `set_in_rep` mutates a copy that
is immediately discarded and the stored sub-pattern keeps `any = false`. -/
def repConstruct (p : Patn) : Patn := .rep p

/-- Repetition as the comments of `Rep`, `Inside` and `InsideN` document it:
the sub-pattern is switched to any-ancestor mode once, at construction. -/
def repIntended (p : Patn) : Patn := .rep (setInRep p)

/-- `PatternDef::match` for every combinator.  Arguments: remaining fuel
(the repetition loop of `Rep` need not terminate in the source), the
pattern, the child list the cursor walks (`kids`), the ancestor chain of
those children (innermost first), the cursor, the end index and the match
state.  Returns `none` on fuel exhaustion or on an out-of-range iterator
dereference, otherwise the source's boolean result together with the
cursor and match state it leaves behind. -/
def matchF : Nat → Patn → List TNode → List TNode → Nat → Nat → MatchSt →
    Option (Bool × Nat × MatchSt)
  | 0, _, _, _, _, _, _ => none
  | _ + 1, .anyP, _, _, it, e, m =>
    if it == e then some (false, it, m) else some (true, it + 1, m)
  | _ + 1, .tokT t, kids, _, it, e, m =>
    if it == e then some (false, it, m)
    else
      match kids.get? it with
      | none => none
      | some n =>
        if n.tag == t then some (true, it + 1, m) else some (false, it, m)
  | _ + 1, .regexT t re, kids, _, it, e, m =>
    if it == e then some (false, it, m)
    else
      match kids.get? it with
      | none => none
      | some n =>
        if n.tag != t then some (false, it, m)
        else if re n.loc then some (true, it + 1, m)
        else some (false, it, m)
  | fuel + 1, .opt p, kids, anc, it, e, m =>
    match matchF fuel p kids anc it e m with
    | none => none
    | some (b, it1, m1) =>
      if b then some (true, it1, m.add m1) else some (true, it1, m)
  | fuel + 1, .rep p, kids, anc, it, e, m =>
    if customRep p then matchF fuel p kids anc it e m
    else if it == e then some (true, it, m)
    else
      match matchF fuel p kids anc it e m with
      | none => none
      | some (b, it1, m1) =>
        if b then matchF fuel (.rep p) kids anc it1 e m1
        else some (true, it1, m1)
  | fuel + 1, .notP p, kids, anc, it, e, m =>
    if it == e then some (false, it, m)
    else
      match matchF fuel p kids anc it e m with
      | none => none
      | some (b, _, _) =>
        if b then some (false, it, m) else some (true, it + 1, m)
  | fuel + 1, .seqP p q, kids, anc, it, e, m =>
    match matchF fuel p kids anc it e m with
    | none => none
    | some (b1, it1, m1) =>
      if b1 then
        match matchF fuel q kids anc it1 e m1 with
        | none => none
        | some (b2, it2, m2) =>
          if b2 then some (true, it2, m.add m2) else some (false, it, m)
      else some (false, it1, m)
  | fuel + 1, .choice p q, kids, anc, it, e, m =>
    match matchF fuel p kids anc it e m with
    | none => none
    | some (b1, it1, m1) =>
      if b1 then some (true, it1, m.add m1)
      else
        match matchF fuel q kids anc it1 e m with
        | none => none
        | some (b2, it2, m2) =>
          if b2 then some (true, it2, m.add m2) else some (false, it2, m)
  | _ + 1, .inside t any, kids, anc, it, e, m =>
    if it == e then some (false, it, m)
    else
      match kids.get? it with
      | none => none
      | some _ =>
        let rec walk : List TNode → Bool
          | [] => false
          | a :: rest => if a.tag == t then true else if !any then false
              else walk rest
        some (walk anc, it, m)
  | _ + 1, .insideN ts any, kids, anc, it, e, m =>
    if it == e then some (false, it, m)
    else
      match kids.get? it with
      | none => none
      | some _ =>
        let rec walkN : List TNode → Bool
          | [] => false
          | a :: rest => if ts.any (fun t => t == a.tag) then true
              else if !any then false else walkN rest
        some (walkN anc, it, m)
  | _ + 1, .firstP, kids, anc, it, e, m =>
    if it == e then some (false, it, m)
    else
      match kids.get? it with
      | none => none
      | some _ => some (!anc.isEmpty && it == 0, it, m)
  | _ + 1, .lastP, _, _, it, e, m => some (it == e, it, m)
  | fuel + 1, .childrenP p q, kids, anc, it, e, m =>
    match matchF fuel p kids anc it e m with
    | none => none
    | some (b1, it1, m1) =>
      if b1 then
        match kids.get? it with
        | none => none
        | some x =>
          match matchF fuel q x.kids (x :: anc) 0 x.kids.length m1 with
          | none => none
          | some (b2, _, m2) =>
            if b2 then some (true, it1, m.add m2) else some (false, it, m)
      else some (false, it1, m)
  | fuel + 1, .pred p, kids, anc, it, e, m =>
    match matchF fuel p kids anc it e m with
    | none => none
    | some (b, _, _) => some (b, it, m)
  | fuel + 1, .negPred p, kids, anc, it, e, m =>
    match matchF fuel p kids anc it e m with
    | none => none
    | some (b, _, _) => some (!b, it, m)
  | fuel + 1, .action f p, kids, anc, it, e, m =>
    match matchF fuel p kids anc it e m with
    | none => none
    | some (b, it1, m1) =>
      if b then
        if f kids it it1 then some (true, it1, m.add m1)
        else some (false, it, m)
      else some (false, it1, m)
  | fuel + 1, .cap name p, kids, anc, it, e, m =>
    match matchF fuel p kids anc it e m with
    | none => none
    | some (b, it1, m1) =>
      if b then
        some (true, it1, (m.add m1).setCap name ⟨kids, it, it1⟩)
      else some (false, it1, m)

/-! ### The pass executor (`pass.h`)

A rule is the `PatternEffect` pair: the pattern is kept abstract as the
input-output relation of `PatternDef::match` (child list, cursor, end,
match state in; success flag, cursor, match state out), the effect maps a
match state to the optional replacement node.  The executor's scan loop,
`lift` and `run` need not terminate in the source, so they take fuel;
`none` also covers the source's undefined behaviour (dereferencing an
out-of-range cursor, `front()` of a childless lift envelope). -/

structure Rule where
  pat : List TNode → Nat → Nat → MatchSt → Bool × Nat × MatchSt
  eff : MatchSt → Option TNode

structure Pass where
  preOnce : Option (TNode → TNode × Nat) := none
  postOnce : Option (TNode → TNode × Nat) := none
  preTok : List (Tok × (TNode → TNode × Nat)) := []
  postTok : List (Tok × (TNode → TNode × Nat)) := []
  bu : Bool := false
  td : Bool := true
  once : Bool := false
  rules : List Rule := []

def findHook (hs : List (Tok × (TNode → TNode × Nat))) (tg : Tok) :
    Option (TNode → TNode × Nat) :=
  match hs.find? (fun e => e.1 == tg) with
  | some e => some e.2
  | none => none

def runHook (h : Option (TNode → TNode × Nat)) (n : TNode) : TNode × Nat :=
  match h with
  | some f => f n
  | none => (n, 0)

/-- `NodeDef::set_location`: adopt the location when the node has none
with a source buffer, and recurse into all children unconditionally. -/
def setLocF (l : TLoc) : TNode → TNode
  | .mk tg l0 ow e cl s ks =>
    .mk tg (if l0.source.isNone then l else l0) ow e cl s (setLocList l ks)
where
  setLocList (l : TLoc) : List TNode → List TNode
  | [] => []
  | k :: ks => setLocF l k :: setLocList l ks

/-- The location the replacement inherits: the span union over the erased
range `[start, stop)` (`(*start)->location()` folded with `*`). -/
def locOfRange (kids : List TNode) (start stop : Nat) : TLoc :=
  let base := match kids.get? start with | some n => n.loc | none => {}
  (((kids.drop (start + 1)).take (stop - (start + 1))).map TNode.loc).foldl
    TLoc.union base

/-- The walk of `NodeDef::add_flags` for a child `x` being attached to `n`
by the executor, expressed on `n` itself: the first returned boolean says
an error walk continues above `n`, the second says a lift walk does. -/
def insFlags (n : TNode) (x : TNode) : TNode × Bool × Bool :=
  if x.tag == ErrorTok || x.ce then
    if n.ce then (n, false, false) else (n.withCe true, true, false)
  else if x.tag == LiftTok || x.cl then
    if n.cl then (n, false, false) else (n.withCl true, false, true)
  else (n, false, false)

/-- Same walks for a batch attach (`NodeDef::insert(pos, first, last)`). -/
def insFlagsMany : TNode → List TNode → TNode × Bool × Bool
  | n, [] => (n, false, false)
  | n, x :: xs =>
    let r := insFlags n x
    let rest := insFlagsMany r.1 xs
    (rest.1, r.2.1 || rest.2.1, r.2.2 || rest.2.2)

/-- Continue `add_flags` walks that escaped a child's subtree at its
parent `n`: set-and-continue, or stop at an already-set flag. -/
def foldEsc (n : TNode) (pe pl : Bool) : TNode × Bool × Bool :=
  let r1 := if pe then (if n.ce then (n, false) else (n.withCe true, true))
    else (n, false)
  let r2 :=
    if pl then (if r1.1.cl then (r1.1, false) else (r1.1.withCl true, true))
    else (r1.1, false)
  (r2.1, r1.2, r2.2)

/-- The outcome of `PassDef::step`: the node whose children were scanned,
the cursor, the running change count, `replaced` (`-1` when no rule
fired), the match state, and the two escaping `add_flags` walks. -/
structure StepRes where
  n : TNode
  it : Nat
  changes : Nat
  replaced : Int
  m : MatchSt
  pe : Bool
  pl : Bool

/-- `PassDef::step`: try each rule in order at the cursor; reset the match
state first; a rule whose effect returns a `NoChange` node restores the
cursor and falls through to the next rule; otherwise erase the matched
range and delete (`nullptr`), splice (`Seq`) or insert the replacement,
accounting the change. -/
def stepGo : List Rule → TNode → Nat → Nat → MatchSt → StepRes
  | [], n, it, changes, m => ⟨n, it, changes, -1, m, false, false⟩
  | r :: rest, n, it, changes, m =>
    let m0 := m.reset
    match r.pat n.kids it n.kids.length m0 with
    | (false, it1, m1) => stepGo rest n it1 changes m1
    | (true, it1, m1) =>
      match r.eff m1 with
      | some rep =>
        if rep.tag == NoChangeTok then stepGo rest n it changes m1
        else
          let loc := locOfRange n.kids it it1
          let n1 := n.withKids (n.kids.take it ++ n.kids.drop it1)
          if rep.tag == SeqTok then
            let reps := (rep.kids.map (setLocF loc)).map
              (fun x => x.withOwned true)
            let fl := insFlagsMany n1 reps
            ⟨fl.1.withKids
                (fl.1.kids.take it ++ reps ++ fl.1.kids.drop it),
              it, changes + reps.length, (reps.length : Int), m1,
              fl.2.1, fl.2.2⟩
          else
            let rep2 := (setLocF loc rep).withOwned true
            let fl := insFlags n1 rep2
            ⟨fl.1.withKids
                (fl.1.kids.take it ++ [rep2] ++ fl.1.kids.drop it),
              it, changes + 1, 1, m1, fl.2.1, fl.2.2⟩
      | none =>
        ⟨n.withKids (n.kids.take it ++ n.kids.drop it1),
          it, changes, 0, m1, false, false⟩

/-- The four call shapes of the `apply` recursion: visiting a node,
recursing into the child at a cursor, the scan loop over a node's
children, and the `for (ptrdiff_t i = 0; i < to; ++i)` descent of
once-mode top-down `apply`.  A single fuel-indexed function replaces the
C++ mutual recursion so that every call consumes fuel. -/
inductive ApplyCall where
  | node (m : MatchSt) (n : TNode)
  | child (m : MatchSt) (n : TNode) (it : Nat)
  | loop (n : TNode) (it changes : Nat) (m : MatchSt) (peA plA : Bool)
  | kids (n : TNode) (it count changes : Nat) (m : MatchSt)

/-- `PassDef::apply` and its loops.
 * `.node`: skip `Error`/`Lift` roots, run the per-token pre-hook, scan
   the children, run the per-token post-hook.
 * `.child`: rewrite the child at the cursor in place and fold escaping
   `add_flags` walks into the parent.
 * `.loop`: the scan over the children (`peA`/`plA` accumulate escaping
   walks).
 * `.kids`: the once-mode top-down descent into the replaced range. -/
def applyGoF : Nat → Pass → ApplyCall →
    Option (TNode × Nat × MatchSt × Bool × Bool)
  | 0, _, _ => none
  | fuel + 1, ps, .node m n =>
    if n.tag == ErrorTok || n.tag == LiftTok then some (n, 0, m, false, false)
    else
      let pre := runHook (findHook ps.preTok n.tag) n
      match applyGoF fuel ps (.loop pre.1 0 pre.2 m false false) with
      | none => none
      | some (n2, ch2, m2, pe, pl) =>
        let post := runHook (findHook ps.postTok n2.tag) n2
        some (post.1, ch2 + post.2, m2, pe, pl)
  | fuel + 1, ps, .child m n it =>
    match n.kids.get? it with
    | none => none
    | some c =>
      match applyGoF fuel ps (.node m c) with
      | none => none
      | some (c1, ch, m1, pe, pl) =>
        let fe := foldEsc (n.setKid it c1) pe pl
        some (fe.1, ch, m1, fe.2.1, fe.2.2)
  | fuel + 1, ps, .loop n it changes m peA plA =>
    if it == n.kids.length then some (n, changes, m, peA, plA)
    else
      match n.kids.get? it with
      | none => none
      | some c =>
        if c.tag == ErrorTok || c.tag == LiftTok then
          applyGoF fuel ps (.loop n (it + 1) changes m peA plA)
        else
          match
            (if ps.bu then applyGoF fuel ps (.child m n it)
             else some (n, 0, m, false, false)) with
          | none => none
          | some (nB, chB, mB, peB, plB) =>
            let s := stepGo ps.rules nB it (changes + chB) mB
            let peA2 := peA || peB || s.pe
            let plA2 := plA || plB || s.pl
            if ps.once then
              match
                (if ps.td && s.replaced != 0 then
                  applyGoF fuel ps
                    (.kids s.n s.it (max s.replaced 1).toNat s.changes s.m)
                 else some (s.n, s.changes, s.m, false, false)) with
              | none => none
              | some (n2, ch2, m2, peK, plK) =>
                let it2 :=
                  if s.replaced ≥ 0 then s.it + s.replaced.toNat
                  else s.it + 1
                applyGoF fuel ps
                  (.loop n2 it2 ch2 m2 (peA2 || peK) (plA2 || plK))
            else if s.replaced ≥ 0 then
              applyGoF fuel ps (.loop s.n 0 s.changes s.m peA2 plA2)
            else
              match
                (if ps.td then applyGoF fuel ps (.child s.m s.n s.it)
                 else some (s.n, 0, s.m, false, false)) with
              | none => none
              | some (n2, ch2, m2, peT, plT) =>
                applyGoF fuel ps
                  (.loop n2 (s.it + 1) (s.changes + ch2) m2
                    (peA2 || peT) (plA2 || plT))
  | fuel + 1, ps, .kids n it count changes m =>
    match count with
    | 0 => some (n, changes, m, false, false)
    | cnt + 1 =>
      match applyGoF fuel ps (.child m n it) with
      | none => none
      | some (n1, ch, m1, pe, pl) =>
        match applyGoF fuel ps (.kids n1 (it + 1) cnt (changes + ch) m1) with
        | none => none
        | some (n2, ch2, m2, pe2, pl2) =>
          some (n2, ch2, m2, pe || pe2, pl || pl2)

/-- `PassDef::apply` on a node. -/
def applyF (fuel : Nat) (ps : Pass) (m : MatchSt) (n : TNode) :
    Option (TNode × Nat × MatchSt × Bool × Bool) :=
  applyGoF fuel ps (.node m n)

/-- The inner envelope loop of `PassDef::lift` at node `n`, cursor `it`:
each pending lifted envelope whose first child's tag equals `n`'s tag has
its remaining children spliced in at the cursor (re-parented, with
`add_flags`); the others are passed upward.  Returns the node, the cursor,
whether any splice happened (which suppresses the cursor advance), the
envelopes to propagate and the escaping flag walks.  `none` models
`front()` on a childless envelope. -/
def processEnvs : TNode → Nat → List TNode →
    Option (TNode × Nat × Bool × List TNode × Bool × Bool)
  | n, it, [] => some (n, it, false, [], false, false)
  | n, it, l :: rest =>
    match l.kids.head? with
    | none => none
    | some front =>
      if front.tag == n.tag then
        let content := (l.kids.drop 1).map (fun x => x.withOwned true)
        let fl := insFlagsMany n content
        let n2 := fl.1.withKids
          (fl.1.kids.take it ++ content ++ fl.1.kids.drop it)
        match processEnvs n2 (it + content.length) rest with
        | none => none
        | some (n3, it3, _, ul, pe, pl) =>
          some (n3, it3, true, ul, fl.2.1 || pe, fl.2.2 || pl)
      else
        match processEnvs n it rest with
        | none => none
        | some (n3, it3, sp, ul, pe, pl) =>
          some (n3, it3, sp, l :: ul, pe, pl)

/-- The two call shapes of the `lift` recursion: visiting a node and the
child loop from a cursor (one fuel-indexed function replaces the C++
recursion so that every call consumes fuel). -/
inductive LiftCall where
  | node (n : TNode)
  | kids (n : TNode) (it : Nat)

/-- `PassDef::lift`: recursively process every subtree, collect `Lift`
children, splice envelopes whose destination is the current node and
return the rest. -/
def liftGoF : Nat → LiftCall → Option (TNode × List TNode × Bool × Bool)
  | 0, _ => none
  | fuel + 1, .node n => liftGoF fuel (.kids n 0)
  | fuel + 1, .kids n it =>
    if it == n.kids.length then some (n, [], false, false)
    else
      match n.kids.get? it with
      | none => none
      | some c =>
        match liftGoF fuel (.node c) with
        | none => none
        | some (c1, lifted0, peC, plC) =>
          let fe := foldEsc (n.setKid it c1) peC plC
          let isLift := c1.tag == LiftTok
          let n1 := if isLift then fe.1.withKids (fe.1.kids.eraseIdx it)
            else fe.1
          let lifted := if isLift then c1 :: lifted0 else lifted0
          match processEnvs n1 it lifted with
          | none => none
          | some (n2, it2, spliced, ulHere, peE, plE) =>
            let advance := !isLift && !spliced
            match liftGoF fuel (.kids n2 (if advance then it2 + 1 else it2)) with
            | none => none
            | some (n3, ulRest, peR, plR) =>
              some (n3, ulHere ++ ulRest,
                fe.2.1 || peE || peR, fe.2.2 || plE || plR)

/-- `PassDef::lift` on a node. -/
def liftF (fuel : Nat) (n : TNode) : Option (TNode × List TNode × Bool × Bool) :=
  liftGoF fuel (.node n)

inductive PErr where
  /-- The fuel ran out, or the source reached undefined behaviour. -/
  | stuck
  /-- `throw std::runtime_error("lifted nodes with no destination")`. -/
  | unresolvedLift
deriving DecidableEq, Repr

/-- Apply `post_once`, if set, and build `run`'s result tuple. -/
def finishRun (ps : Pass) (t : TNode) (count csum : Nat) :
    Except PErr (TNode × Nat × Nat) :=
  match ps.postOnce with
  | some f => .ok ((f t).1, count, csum + (f t).2)
  | none => .ok (t, count, csum)

/-- The `do ... while (changes > 0)` loop of `PassDef::run`. -/
def runGo : Nat → Pass → MatchSt → TNode → Nat → Nat →
    Except PErr (TNode × Nat × Nat)
  | 0, _, _, _, _, _ => .error .stuck
  | fuel + 1, ps, m, t, count, csum =>
    match applyF fuel ps m t with
    | none => .error .stuck
    | some (t1, changes, m1, _, _) =>
      match liftF fuel t1 with
      | none => .error .stuck
      | some (t2, ul, _, _) =>
        if !ul.isEmpty then .error .unresolvedLift
        else
          let csum1 := csum + changes
          let count1 := count + 1
          if ps.once then finishRun ps t2 count1 csum1
          else if changes > 0 then runGo fuel ps m1 t2 count1 csum1
          else finishRun ps t2 count1 csum1

/-- `PassDef::run`: the once-per-run pre-hook, the apply/lift loop with
its iteration and change counters, the once-per-run post-hook. -/
def runF (fuel : Nat) (ps : Pass) (t : TNode) :
    Except PErr (TNode × Nat × Nat) :=
  let pre := runHook ps.preOnce t
  runGo fuel ps ⟨pre.1, false, []⟩ pre.1 0 pre.2

/-- The tree of a successful `runF`, for stating concrete results. -/
def runTree : Except PErr (TNode × Nat × Nat) → Option TNode
  | .ok (t, _, _) => some t
  | .error _ => none

/-! ### Concrete material used by witnesses and counterexamples -/

def tokA : Tok := { id := 10 }

def tokB : Tok := { id := 11 }

def tokC : Tok := { id := 12 }

def tokGroup : Tok := { id := 20 }

/-- A `symtab` block token. -/
def tokBlock : Tok := { id := 21, fSymtab := true }

/-- A `symtab` + `defbeforeuse` block token. -/
def tokBlockD : Tok := { id := 22, fSymtab := true, fDefbeforeuse := true }

/-- A `lookup` binding token (a `Let`). -/
def tokLet : Tok := { id := 30, fLookup := true }

/-- A `lookup` + `shadowing` binding token. -/
def tokLetSh : Tok := { id := 31, fLookup := true, fShadowing := true }

/-- A token for nodes that use a name. -/
def tokUse : Tok := { id := 32 }

def leafN (t : Tok) : TNode := createNode t

/-- A node with the given owned children (as the owning mutators build). -/
def nodeW (t : Tok) (ks : List TNode) : TNode :=
  .mk t {} false false false (if t.fSymtab then some {} else none)
    (ks.map (fun k => k.withOwned true))

/-- The name key used in the symbol-table scenarios. -/
def locX : TLoc := { first := 7, len := 1 }

/-- A `defbeforeuse` block whose symbol table binds `locX` to the second
child (a `Let`), looked up from the first child (a use that textually
precedes the binding): the scenario of the definition-before-use claim. -/
def dbuTree : TNode :=
  .mk tokBlockD {} false false false
    (some { symbols := [(locX, [[1]])], includes := [] })
    [((leafN tokUse).withLoc locX).withOwned true,
      ((leafN tokLet).withLoc locX).withOwned true]

/-- A plain block with a non-shadowing `Let` (child 0) and a shadowing
`Let` (child 1), before any binding. -/
def shTree : TNode :=
  nodeW tokBlock [(leafN tokLet).withLoc locX, (leafN tokLetSh).withLoc locX]

/-- `shTree` after binding the non-shadowing `Let`. -/
def shTree1 : TNode := (bindTree (bindF shTree [0] locX)).getD default

/-- A tree whose only child is a `Lift` envelope destined for a tag
(`tokB`) no ancestor carries. -/
def cex7Tree : TNode := nodeW tokGroup [nodeW LiftTok [leafN tokB]]

/-- A pass whose once-per-run post hook appends a `Lift` leaf. -/
def psPostLift : Pass :=
  { postOnce := some (fun t => (t.withKids (t.kids ++ [leafN LiftTok]), 0)) }

/-- A rule whose pattern matches one `tokA` node and whose effect returns
a `NoChange` node. -/
def ruleNoChange : Rule :=
  { pat := fun kids it e m =>
      match kids.get? it with
      | some n => if it != e && n.tag == tokA then (true, it + 1, m)
        else (false, it, m)
      | none => (false, it, m)
    eff := fun _ => some (leafN NoChangeTok) }

/-- The shape shared by the child-attaching mutators: the transform keeps
the receiver's tag, flags and the relative order of its children, and
places the new child - with its parent pointer claimed - somewhere in the
child list. -/
def ShapeIns (c m n : TNode) : Prop :=
  m.tag = n.tag ∧ m.ce = n.ce ∧ m.cl = n.cl ∧
    ∃ l1 l2, n.kids = l1 ++ l2 ∧ m.kids = l1 ++ c.withOwned true :: l2

/-- An `Error` leaf pushed (owning) under a fresh `tokA` node. -/
def c1w : TNode :=
  (buildRun (createNode tokA) [.pushBack [] (createNode ErrorTok)]).getD default

/-- The `Error` child inside `c1w`: an `Error`-tagged node whose own
`contains_error` flag is clear. -/
def c1node0 : TNode := (nodeAt c1w [0]).getD default

/-- An `Error` leaf attached ephemerally: no flag is set on the parent. -/
def c1eph : TNode :=
  (pushBackEphAt (leafN tokA) [] (leafN ErrorTok)).getD default

/-- A node that contains both an `Error` and a `Lift` child, then gets
attached to a fresh parent: only `contains_error` propagates. -/
def c1both : TNode :=
  (do
    let a ← pushBackAt (leafN tokA) [] (leafN ErrorTok)
    let a2 ← pushBackAt a [] (leafN LiftTok)
    pushBackAt (leafN tokB) [] a2).getD default

/-- Replacing the only (`Error`) child leaves `contains_error` set. -/
def c1repl : TNode :=
  (do
    let a ← pushBackAt (leafN tokA) [] (leafN ErrorTok)
    replaceChildAt a [] 0 (some (leafN tokC))).getD default

/-- A node with one owned and one ephemeral child (for `pop_back`). -/
def c9n : TNode :=
  .mk tokGroup {} false false false none
    [(leafN tokA).withOwned true, leafN tokB]

/-- A match state with a capture recorded under `tokB` only. -/
def c10m : MatchSt := ⟨default, true, [(tokB, ⟨[], 0, 0⟩)]⟩

/-- An empty match state. -/
def c4m : MatchSt := ⟨default, false, []⟩

/-- A node with a single `tokA` child, scanned by the step claims. -/
def c4n : TNode := nodeW tokGroup [leafN tokA]

/-! ## Theorems

Small facts about the accessors first, then one theorem per claim (with
its witness or counterexample), in claim order at the end. -/

@[simp] theorem TNode.tag_mk (tg l ow e cl s ks) :
    (TNode.mk tg l ow e cl s ks).tag = tg := rfl

@[simp] theorem TNode.loc_mk (tg l ow e cl s ks) :
    (TNode.mk tg l ow e cl s ks).loc = l := rfl

@[simp] theorem TNode.owned_mk (tg l ow e cl s ks) :
    (TNode.mk tg l ow e cl s ks).owned = ow := rfl

@[simp] theorem TNode.ce_mk (tg l ow e cl s ks) :
    (TNode.mk tg l ow e cl s ks).ce = e := rfl

@[simp] theorem TNode.cl_mk (tg l ow e cl s ks) :
    (TNode.mk tg l ow e cl s ks).cl = cl := rfl

@[simp] theorem TNode.st_mk (tg l ow e cl s ks) :
    (TNode.mk tg l ow e cl s ks).st = s := rfl

@[simp] theorem TNode.kids_mk (tg l ow e cl s ks) :
    (TNode.mk tg l ow e cl s ks).kids = ks := rfl

theorem TNode.withKids_def (n : TNode) (ks : List TNode) :
    n.withKids ks = .mk n.tag n.loc n.owned n.ce n.cl n.st ks := by
  cases n; rfl

theorem TNode.withOwned_def (n : TNode) (b : Bool) :
    n.withOwned b = .mk n.tag n.loc b n.ce n.cl n.st n.kids := by
  cases n; rfl

theorem TNode.withCe_def (n : TNode) (b : Bool) :
    n.withCe b = .mk n.tag n.loc n.owned b n.cl n.st n.kids := by
  cases n; rfl

theorem TNode.withCl_def (n : TNode) (b : Bool) :
    n.withCl b = .mk n.tag n.loc n.owned n.ce b n.st n.kids := by
  cases n; rfl

theorem TNode.withSt_def (n : TNode) (s : Option Symtab) :
    n.withSt s = .mk n.tag n.loc n.owned n.ce n.cl s n.kids := by
  cases n; rfl

@[simp] theorem TNode.st_withSt (n : TNode) (s : Option Symtab) :
    (n.withSt s).st = s := by cases n; rfl

@[simp] theorem TNode.kids_withKids (n : TNode) (ks : List TNode) :
    (n.withKids ks).kids = ks := by cases n; rfl

@[simp] theorem TNode.tag_withKids (n : TNode) (ks : List TNode) :
    (n.withKids ks).tag = n.tag := by cases n; rfl

@[simp] theorem TNode.tag_withOwned (n : TNode) (b : Bool) :
    (n.withOwned b).tag = n.tag := by cases n; rfl

@[simp] theorem TNode.kids_withOwned (n : TNode) (b : Bool) :
    (n.withOwned b).kids = n.kids := by cases n; rfl

@[simp] theorem TNode.ce_withOwned (n : TNode) (b : Bool) :
    (n.withOwned b).ce = n.ce := by cases n; rfl

@[simp] theorem TNode.cl_withOwned (n : TNode) (b : Bool) :
    (n.withOwned b).cl = n.cl := by cases n; rfl

@[simp] theorem TNode.tag_withCe (n : TNode) (b : Bool) :
    (n.withCe b).tag = n.tag := by cases n; rfl

@[simp] theorem TNode.kids_withCe (n : TNode) (b : Bool) :
    (n.withCe b).kids = n.kids := by cases n; rfl

@[simp] theorem TNode.ce_withCe (n : TNode) (b : Bool) :
    (n.withCe b).ce = b := by cases n; rfl

@[simp] theorem TNode.cl_withCe (n : TNode) (b : Bool) :
    (n.withCe b).cl = n.cl := by cases n; rfl

@[simp] theorem TNode.tag_withCl (n : TNode) (b : Bool) :
    (n.withCl b).tag = n.tag := by cases n; rfl

@[simp] theorem TNode.kids_withCl (n : TNode) (b : Bool) :
    (n.withCl b).kids = n.kids := by cases n; rfl

@[simp] theorem TNode.ce_withCl (n : TNode) (b : Bool) :
    (n.withCl b).ce = n.ce := by cases n; rfl

@[simp] theorem TNode.cl_withCl (n : TNode) (b : Bool) :
    (n.withCl b).cl = b := by cases n; rfl

/-- C9: `pop_back` on a childless node returns the null node and leaves
the receiver unchanged; otherwise it returns the last child - with its
parent pointer cleared exactly when that parent was the receiver, so
ephemeral children keep theirs - and removes it from the child list. -/
theorem claim9_popBack (n : TNode) :
    (n.kids = [] → popBack n = (none, n)) ∧
    (∀ ks k, n.kids = ks ++ [k] →
      popBack n =
        (some (if k.owned then k.withOwned false else k), n.withKids ks)) := by
  constructor
  · intro h
    simp only [popBack, h, List.getLast?_nil]
  · intro ks k h
    simp only [popBack, h, List.getLast?_concat, List.dropLast_concat]

theorem claim9_popBack_witness :
    c9n.kids = [(leafN tokA).withOwned true] ++ [leafN tokB] ∧
      popBack c9n = (some (leafN tokB), c9n.withKids [(leafN tokA).withOwned true]) := by
  refine ⟨rfl, ?_⟩
  have h := (claim9_popBack c9n).2 [(leafN tokA).withOwned true] (leafN tokB) rfl
  simpa [leafN, createNode, tokB] using h

/-- C10: reading a capture through `Match::operator()` under a token that
was never recorded returns the null node and leaves the capture state
untouched. -/
theorem claim10_readNode (m : MatchSt) (t : Tok) (h : t ∉ m.keys) :
    m.readNode t = (none, m) := by
  have hf : m.captures.find? (fun e => e.1 == t) = none := by
    rw [List.find?_eq_none]
    intro e he hbe
    exact h (by
      simp only [MatchSt.keys, List.mem_map]
      exact ⟨e, he, by simpa using hbe⟩)
  simp only [MatchSt.readNode, hf]

theorem claim10_readNode_witness :
    tokA ∉ c10m.keys ∧ c10m.readNode tokA = (none, c10m) :=
  ⟨by decide, claim10_readNode c10m tokA (by decide)⟩

/-- C4: when a rule's pattern matches but its effect returns a `NoChange`
node, `step` restores the cursor to the start of the match, tries the
remaining rules at that position with the tree and change count
untouched; and a `step` in which no rule fired (`replaced = -1`) leaves
the node and the change count exactly as they were. -/
theorem claim4_step :
    (∀ (r : Rule) rest n it ch m it1 m1 rep,
        r.pat n.kids it n.kids.length m.reset = (true, it1, m1) →
        r.eff m1 = some rep → rep.tag = NoChangeTok →
        stepGo (r :: rest) n it ch m = stepGo rest n it ch m1) ∧
    (∀ rules n it ch m,
        (stepGo rules n it ch m).replaced = -1 →
        (stepGo rules n it ch m).n = n ∧
          (stepGo rules n it ch m).changes = ch) := by
  constructor
  · intro r rest n it ch m it1 m1 rep h1 h2 h3
    simp only [stepGo, h1, h2, h3]
    simp
  · intro rules
    induction rules with
    | nil => intro n it ch m _; exact ⟨rfl, rfl⟩
    | cons r rest ih =>
      intro n it ch m h
      rcases hp : r.pat n.kids it n.kids.length m.reset with ⟨b, it1, m1⟩
      simp only [stepGo, hp] at h ⊢
      cases b with
      | false => exact ih n it1 ch m1 h
      | true =>
        cases he : r.eff m1 with
        | some rep =>
          simp only [he] at h ⊢
          by_cases hnc : (rep.tag == NoChangeTok) = true
          · simp only [if_pos hnc] at h ⊢
            exact ih n it ch m1 h
          · simp only [if_neg hnc] at h
            exfalso
            by_cases hseq : (rep.tag == SeqTok) = true
            · simp only [if_pos hseq] at h
              omega
            · simp only [if_neg hseq] at h
              omega
        | none =>
          simp only [he] at h
          omega

theorem lookup_filter_eq (root : TNode) (selfP : List Nat) (dbu : Bool)
    (entry : List (List Nat)) :
    entry.filter (fun b =>
        lookupFlagAt root b && (!dbu || precedesPath b selfP)) =
      (if dbu then
        (entry.filter (fun b => lookupFlagAt root b)).filter
          (fun b => precedesPath b selfP)
      else entry.filter (fun b => lookupFlagAt root b)) := by
  cases dbu with
  | false => simp
  | true =>
    simp only [if_pos, List.filter_filter]
    apply List.filter_congr
    intro b _
    simp [Bool.and_comm]

theorem lookupGo_eq_spec (root : TNode) (selfP : List Nat) (key : TLoc)
    (lim : Option (List Nat)) :
    ∀ fuel q acc, lookupGo root selfP key lim fuel q acc =
      lookupSpecGo root selfP key lim fuel q acc := by
  intro fuel
  induction fuel with
  | zero => intro q acc; cases q <;> rfl
  | succ f ih =>
    intro q acc
    cases q with
    | none => rfl
    | some qq =>
      simp only [lookupGo, lookupSpecGo]
      cases hn : nodeAt root qq with
      | none => rfl
      | some stN =>
        simp only [lookup_filter_eq root selfP stN.tag.fDefbeforeuse]
        set col := acc ++
            (if stN.tag.fDefbeforeuse then
              (List.filter (fun b => lookupFlagAt root b)
                  ((symFind (stN.st.getD {}) key).getD [])).filter
                (fun b => precedesPath b selfP)
            else
              List.filter (fun b => lookupFlagAt root b)
                ((symFind (stN.st.getD {}) key).getD [])) ++
            (stN.st.getD {}).includes with hcol
        by_cases h1 : (some qq == lim) = true
        · simp [h1]
        · by_cases h2 : (col.any (fun b => shadowAt root b)) = true
          · simp [h1, h2]
          · simp [h1, h2, ih]

/-- C3: upward lookup walks outward from the node's scope and, at each
scope, collects exactly the bindings for the node's location whose tag has
the `lookup` flag - restricted, in a `defbeforeuse` scope, to bindings
that precede the node - then appends that scope's includes
unconditionally, and stops exactly when the scope just processed is the
`until` limit or some collected node has the `shadowing` flag.  In
particular, in a `defbeforeuse` scope a lookup from a node that textually
precedes the only binding for its name returns the empty list (`dbuTree`
is that scenario). -/
theorem claim3_lookup :
    (∀ root p lim, lookupF root p lim = lookupSpecF root p lim) ∧
      lookupF dbuTree [0] none = [] := by
  constructor
  · intro root p lim
    unfold lookupF lookupSpecF
    cases nodeAt root p with
    | none => rfl
    | some selfN => exact lookupGo_eq_spec root p selfN.loc lim p.length _ []
  · decide

/-- A non-`custom_rep` repetition never reports failure: its loop always
ends in `return true`. -/
theorem rep_no_false : ∀ fuel p kids anc it e m r,
    customRep p = false →
    matchF fuel (.rep p) kids anc it e m = some r → r.1 = true := by
  intro fuel
  induction fuel with
  | zero =>
    intro p kids anc it e m r _ h
    simp [matchF] at h
  | succ f ih =>
    intro p kids anc it e m r hc h
    simp only [matchF, hc, Bool.false_eq_true, if_false] at h
    split at h
    · simp only [Option.some.injEq] at h
      rw [← h]
    · cases hm : matchF f p kids anc it e m with
      | none => rw [hm] at h; simp at h
      | some r1 =>
        rw [hm] at h
        obtain ⟨b1, it1, m1⟩ := r1
        cases b1 with
        | true => exact ih p kids anc it1 e m1 r hc h
        | false =>
          simp only [Bool.false_eq_true, if_false, Option.some.injEq] at h
          rw [← h]

/-- C6: whenever a combinator-built pattern reports failure, it has
restored the cursor to where the call started and left the capture state
of the match untouched (in particular a sequence whose second component
fails after the first succeeded). -/
theorem claim6_restore : ∀ fuel p kids anc it e m it2 m2,
    matchF fuel p kids anc it e m = some (false, it2, m2) →
    it2 = it ∧ m2 = m := by
  intro fuel
  induction fuel with
  | zero =>
    intro p kids anc it e m it2 m2 h
    simp [matchF] at h
  | succ f ih =>
    intro p kids anc it e m it2 m2 h
    cases p with
    | anyP =>
      simp only [matchF] at h
      split at h
      · simp only [Option.some.injEq, Prod.mk.injEq] at h
        exact ⟨h.2.1.symm, h.2.2.symm⟩
      · simp at h
    | tokT t =>
      simp only [matchF] at h
      split at h
      · simp only [Option.some.injEq, Prod.mk.injEq] at h
        exact ⟨h.2.1.symm, h.2.2.symm⟩
      · split at h
        · simp at h
        · split at h
          · simp at h
          · simp only [Option.some.injEq, Prod.mk.injEq] at h
            exact ⟨h.2.1.symm, h.2.2.symm⟩
    | regexT t re =>
      simp only [matchF] at h
      split at h
      · simp only [Option.some.injEq, Prod.mk.injEq] at h
        exact ⟨h.2.1.symm, h.2.2.symm⟩
      · split at h
        · simp at h
        · split at h
          · simp only [Option.some.injEq, Prod.mk.injEq] at h
            exact ⟨h.2.1.symm, h.2.2.symm⟩
          · split at h
            · simp at h
            · simp only [Option.some.injEq, Prod.mk.injEq] at h
              exact ⟨h.2.1.symm, h.2.2.symm⟩
    | opt p =>
      simp only [matchF] at h
      cases hm : matchF f p kids anc it e m with
      | none => rw [hm] at h; simp at h
      | some r1 =>
        rw [hm] at h
        obtain ⟨b1, it1, m1⟩ := r1
        cases b1 <;> simp at h
    | rep p =>
      by_cases hc : customRep p = true
      · simp only [matchF, hc, if_true] at h
        exact ih p kids anc it e m it2 m2 h
      · have := rep_no_false (f + 1) p kids anc it e m (false, it2, m2)
          (by simpa using hc) h
        simp at this
    | notP p =>
      simp only [matchF] at h
      split at h
      · simp only [Option.some.injEq, Prod.mk.injEq] at h
        exact ⟨h.2.1.symm, h.2.2.symm⟩
      · cases hm : matchF f p kids anc it e m with
        | none => rw [hm] at h; simp at h
        | some r1 =>
          rw [hm] at h
          obtain ⟨b1, it1, m1⟩ := r1
          cases b1 with
          | true =>
            simp only [if_true, Option.some.injEq, Prod.mk.injEq] at h
            exact ⟨h.2.1.symm, h.2.2.symm⟩
          | false => simp at h
    | seqP p q =>
      simp only [matchF] at h
      cases hm : matchF f p kids anc it e m with
      | none => rw [hm] at h; simp at h
      | some r1 =>
        rw [hm] at h
        obtain ⟨b1, it1, m1⟩ := r1
        cases b1 with
        | false =>
          simp only [Bool.false_eq_true, if_false, Option.some.injEq,
            Prod.mk.injEq] at h
          obtain ⟨hi, hm'⟩ := ih p kids anc it e m it1 m1 hm
          exact ⟨h.2.1.symm.trans hi, h.2.2.symm⟩
        | true =>
          simp only [if_true] at h
          cases hm2 : matchF f q kids anc it1 e m1 with
          | none => rw [hm2] at h; simp at h
          | some r2 =>
            rw [hm2] at h
            obtain ⟨b2, it2', m2'⟩ := r2
            cases b2 with
            | true => simp at h
            | false =>
              simp only [Bool.false_eq_true, if_false, Option.some.injEq,
                Prod.mk.injEq] at h
              exact ⟨h.2.1.symm, h.2.2.symm⟩
    | choice p q =>
      simp only [matchF] at h
      cases hm : matchF f p kids anc it e m with
      | none => rw [hm] at h; simp at h
      | some r1 =>
        rw [hm] at h
        obtain ⟨b1, it1, m1⟩ := r1
        cases b1 with
        | true => simp at h
        | false =>
          simp only [Bool.false_eq_true, if_false] at h
          obtain ⟨hi1, -⟩ := ih p kids anc it e m it1 m1 hm
          cases hm2 : matchF f q kids anc it1 e m with
          | none => rw [hm2] at h; simp at h
          | some r2 =>
            rw [hm2] at h
            obtain ⟨b2, it2', m2'⟩ := r2
            cases b2 with
            | true => simp at h
            | false =>
              simp only [Bool.false_eq_true, if_false, Option.some.injEq,
                Prod.mk.injEq] at h
              obtain ⟨hi2, -⟩ := ih q kids anc it1 e m it2' m2' hm2
              exact ⟨h.2.1.symm.trans (hi2.trans hi1), h.2.2.symm⟩
    | inside t any =>
      simp only [matchF] at h
      split at h
      · simp only [Option.some.injEq, Prod.mk.injEq] at h
        exact ⟨h.2.1.symm, h.2.2.symm⟩
      · split at h
        · simp at h
        · simp only [Option.some.injEq, Prod.mk.injEq] at h
          exact ⟨h.2.1.symm, h.2.2.symm⟩
    | insideN ts any =>
      simp only [matchF] at h
      split at h
      · simp only [Option.some.injEq, Prod.mk.injEq] at h
        exact ⟨h.2.1.symm, h.2.2.symm⟩
      · split at h
        · simp at h
        · simp only [Option.some.injEq, Prod.mk.injEq] at h
          exact ⟨h.2.1.symm, h.2.2.symm⟩
    | firstP =>
      simp only [matchF] at h
      split at h
      · simp only [Option.some.injEq, Prod.mk.injEq] at h
        exact ⟨h.2.1.symm, h.2.2.symm⟩
      · split at h
        · simp at h
        · simp only [Option.some.injEq, Prod.mk.injEq] at h
          exact ⟨h.2.1.symm, h.2.2.symm⟩
    | lastP =>
      simp only [matchF, Option.some.injEq, Prod.mk.injEq] at h
      exact ⟨h.2.1.symm, h.2.2.symm⟩
    | childrenP p q =>
      simp only [matchF] at h
      cases hm : matchF f p kids anc it e m with
      | none => rw [hm] at h; simp at h
      | some r1 =>
        rw [hm] at h
        obtain ⟨b1, it1, m1⟩ := r1
        cases b1 with
        | false =>
          simp only [Bool.false_eq_true, if_false, Option.some.injEq,
            Prod.mk.injEq] at h
          obtain ⟨hi, -⟩ := ih p kids anc it e m it1 m1 hm
          exact ⟨h.2.1.symm.trans hi, h.2.2.symm⟩
        | true =>
          simp only [if_true] at h
          split at h
          · simp at h
          · cases hm2 : matchF f q _ _ 0 _ m1 with
            | none => rw [hm2] at h; simp at h
            | some r2 =>
              rw [hm2] at h
              obtain ⟨b2, it2', m2'⟩ := r2
              cases b2 with
              | true => simp at h
              | false =>
                simp only [Bool.false_eq_true, if_false, Option.some.injEq,
                  Prod.mk.injEq] at h
                exact ⟨h.2.1.symm, h.2.2.symm⟩
    | pred p =>
      simp only [matchF] at h
      cases hm : matchF f p kids anc it e m with
      | none => rw [hm] at h; simp at h
      | some r1 =>
        rw [hm] at h
        obtain ⟨b1, it1, m1⟩ := r1
        simp only [Option.some.injEq, Prod.mk.injEq] at h
        exact ⟨h.2.1.symm, h.2.2.symm⟩
    | negPred p =>
      simp only [matchF] at h
      cases hm : matchF f p kids anc it e m with
      | none => rw [hm] at h; simp at h
      | some r1 =>
        rw [hm] at h
        obtain ⟨b1, it1, m1⟩ := r1
        simp only [Option.some.injEq, Prod.mk.injEq] at h
        exact ⟨h.2.1.symm, h.2.2.symm⟩
    | action fa p =>
      simp only [matchF] at h
      cases hm : matchF f p kids anc it e m with
      | none => rw [hm] at h; simp at h
      | some r1 =>
        rw [hm] at h
        obtain ⟨b1, it1, m1⟩ := r1
        cases b1 with
        | false =>
          simp only [Bool.false_eq_true, if_false, Option.some.injEq,
            Prod.mk.injEq] at h
          obtain ⟨hi, -⟩ := ih p kids anc it e m it1 m1 hm
          exact ⟨h.2.1.symm.trans hi, h.2.2.symm⟩
        | true =>
          simp only [if_true] at h
          split at h
          · simp at h
          · simp only [Option.some.injEq, Prod.mk.injEq] at h
            exact ⟨h.2.1.symm, h.2.2.symm⟩
    | cap name p =>
      simp only [matchF] at h
      cases hm : matchF f p kids anc it e m with
      | none => rw [hm] at h; simp at h
      | some r1 =>
        rw [hm] at h
        obtain ⟨b1, it1, m1⟩ := r1
        cases b1 with
        | false =>
          simp only [Bool.false_eq_true, if_false, Option.some.injEq,
            Prod.mk.injEq] at h
          obtain ⟨hi, -⟩ := ih p kids anc it e m it1 m1 hm
          exact ⟨h.2.1.symm.trans hi, h.2.2.symm⟩
        | true => simp at h

theorem claim6_restore_witness :
    matchF 3 (.seqP .anyP (.tokT tokA)) [leafN tokC, leafN tokB] [] 0 2 c4m =
        some (false, 0, c4m) ∧ (0 : Nat) = 0 ∧ c4m = c4m :=
  ⟨rfl,
    claim6_restore 3 (.seqP .anyP (.tokT tokA)) [leafN tokC, leafN tokB]
      [] 0 2 c4m 0 c4m rfl⟩

/-- C8 (code bug): the `Rep` constructor body calls `set_in_rep()` on its
constructor parameter, which shadows the same-named member, so the stored
sub-pattern keeps `any = false` and `In(tag)` inside a repetition still
tests only the immediate parent - although the comments on `set_in_rep`
and `custom_rep` in the source state that `Rep(Inside)` checks any parent.
Concretely, with ancestors `tokB` (parent) and `tokA` (grandparent): the
built `In(tokA)++` fails, the documented behaviour succeeds; plain
`In(tokB)` shows the immediate-parent semantics, and both repetition
forms delegate through `custom_rep` without looping. -/
theorem claim8_repInside :
    repConstruct (.inside tokA false) = .rep (.inside tokA false) ∧
      matchF 9 (repConstruct (.inside tokA false)) [leafN tokC]
          [leafN tokB, leafN tokA] 0 1 c4m = some (false, 0, c4m) ∧
      matchF 9 (.rep (setInRep (.inside tokA false))) [leafN tokC]
          [leafN tokB, leafN tokA] 0 1 c4m = some (true, 0, c4m) ∧
      matchF 9 (.inside tokB false) [leafN tokC]
          [leafN tokB, leafN tokA] 0 1 c4m = some (true, 0, c4m) :=
  ⟨rfl, rfl, rfl, rfl⟩

/-- `find?` commutes with a map that does not change what the predicate
sees. -/
theorem find?_map_pres {α : Type} (g : α → α) (p : α → Bool)
    (hp : ∀ e, p (g e) = p e) :
    ∀ l : List α, (l.map g).find? p = (l.find? p).map g := by
  intro l
  induction l with
  | nil => rfl
  | cons e rest ih =>
    simp only [List.map_cons, List.find?_cons]
    rw [hp e]
    cases hpe : p e
    · simpa using ih
    · rfl

/-- Appending a binding through `symbols[loc].push_back` makes the entry
for the key the old entry extended by the new binding. -/
theorem symFind_symInsert (s : Symtab) (key : TLoc) (b : List Nat) :
    symFind (symInsert s key b) key =
      some ((symFind s key).getD [] ++ [b]) := by
  unfold symFind symInsert
  cases hfind : s.symbols.find? (fun e => e.1 == key) with
  | none =>
    simp only [hfind, Option.isSome_none, Bool.false_eq_true, if_false]
    rw [List.find?_append, hfind]
    simp
  | some e0 =>
    have he0 : (e0.1 == key) = true :=
      @List.find?_some _ (fun e => e.1 == key) e0 s.symbols hfind
    simp only [hfind, Option.isSome_some, if_true]
    rw [find?_map_pres _ _ (fun e => by cases he : e.1 == key <;> simp [he])]
    rw [hfind]
    have hk : e0.1 = key := by simpa using he0
    simp [hk]

/-- A successful `scope()` result points at a node that really owns a
symbol table. -/
theorem scopeGoF_sound : ∀ steps root p q,
    scopeGoF steps root p = some q →
    ∃ n, nodeAt root q = some n ∧ n.st.isSome = true := by
  intro steps
  induction steps with
  | zero => intro root p q h; simp [scopeGoF] at h
  | succ st ih =>
    intro root p q h
    simp only [scopeGoF] at h
    by_cases hp : p = []
    · rw [if_pos hp] at h
      simp at h
    · rw [if_neg hp] at h
      cases hn : nodeAt root p.dropLast with
      | none => rw [hn] at h; simp at h
      | some n =>
        rw [hn] at h
        by_cases hsome : n.st.isSome = true
        · simp only [hsome, if_true, Option.some.injEq] at h
          subst h
          exact ⟨n, hn, hsome⟩
        · simp only [hsome, if_false, Bool.false_eq_true] at h
          exact ih root p.dropLast q h

/-- Updating through a valid path succeeds and the updated node is read
back at the same path. -/
theorem updateAt_spec (f : TNode → TNode) : ∀ q root n,
    nodeAt root q = some n →
    ∃ r2, updateAt root q f = some r2 ∧ nodeAt r2 q = some (f n) := by
  intro q
  induction q with
  | nil =>
    intro root n h
    simp only [nodeAt, Option.some.injEq] at h
    subst h
    exact ⟨f root, rfl, rfl⟩
  | cons i p ih =>
    intro root n h
    simp only [nodeAt] at h
    cases hg : root.kids.get? i with
    | none => rw [hg] at h; simp at h
    | some c =>
      rw [hg] at h
      obtain ⟨c2, hc2, hread⟩ := ih c n h
      refine ⟨root.setKid i c2, ?_, ?_⟩
      · simp only [updateAt, hg, hc2]
      · have hlen : i < root.kids.length := by
          have := List.get?_eq_some.mp hg
          exact this.1
        simp only [nodeAt, TNode.setKid, TNode.withKids_def, TNode.kids_mk]
        rw [List.get?_set_eq_of_lt _ hlen]
        exact hread

/-- The bindings for a key in the scope at path `q`. -/
def scopeEntry (root : TNode) (q : List Nat) (key : TLoc) :
    List (List Nat) :=
  match nodeAt root q with
  | some n => (symFind (n.st.getD {}) key).getD []
  | none => []

/-- C5 (amended): `bind` fails with `NoScope` when the node has no
enclosing scope (leaving the tree untouched, as the failure precedes the
mutation); otherwise it appends the node to the scope's entry for the
name and returns `true` exactly when the node is the sole binding or no
binding now present for the name - including the node itself - carries
the `shadowing` flag. -/
theorem claim5_bind :
    (∀ root p key, scopePath root p = none →
      bindF root p key = .error .noScope) ∧
    (∀ root p key q, scopePath root p = some q →
      ∃ root2,
        bindF root p key = .ok
          ((decide (scopeEntry root q key = []) ||
              !((scopeEntry root q key ++ [p]).any
                (fun b => shadowAt root2 b))),
            root2) ∧
          scopeEntry root2 q key = scopeEntry root q key ++ [p]) := by
  constructor
  · intro root p key h
    simp only [bindF, h]
  · intro root p key q hq
    obtain ⟨n, hn, hst⟩ := scopeGoF_sound p.length root p q hq
    obtain ⟨s, hs⟩ := Option.isSome_iff_exists.mp hst
    obtain ⟨root2, hupd, hread⟩ :=
      updateAt_spec
        (fun nd =>
          match nd.st with
          | some s => nd.withSt (some (symInsert s key p))
          | none => nd) q root n hn
    simp only [hs] at hread
    have hbefore : scopeEntry root q key = (symFind s key).getD [] := by
      simp only [scopeEntry, hn, hs, Option.getD_some]
    have hafter : scopeEntry root2 q key = (symFind s key).getD [] ++ [p] := by
      simp only [scopeEntry, hread, TNode.st_withSt, Option.getD_some,
        symFind_symInsert]
    have hlen : ∀ (l : List (List Nat)) (x : List Nat),
        ((l ++ [x]).length == 1) = decide (l = []) := by
      intro l x
      cases l with
      | nil => rfl
      | cons a as => simp [List.length_append]
    refine ⟨root2, ?_, by rw [hafter, hbefore]⟩
    simp only [bindF, hq, hupd, hread, TNode.st_withSt, Option.getD_some,
      symFind_symInsert, hlen, hbefore]

theorem claim5_bind_witness :
    scopePath shTree [0] = some [] ∧
      (∃ root2,
        bindF shTree [0] locX = .ok
          ((decide (scopeEntry shTree [] locX = []) ||
              !((scopeEntry shTree [] locX ++ [[0]]).any
                (fun b => shadowAt root2 b))),
            root2) ∧
          scopeEntry root2 [] locX = scopeEntry shTree [] locX ++ [[0]]) :=
  ⟨rfl, claim5_bind.2 shTree [0] locX [] rfl⟩

/-- C5 counterexample: after one non-shadowing binding for `locX`
(`shTree1`, whose sole entry is the node at path `[0]`, not shadowing),
binding the shadowing node at `[1]` returns `false`, although no binding
already present before this bind carries the `shadowing` flag - the
`false` comes from the freshly inserted node itself being counted. -/
theorem claim5_bind_cex :
    bindRet (bindF shTree1 [1] locX) = some false ∧
      scopeEntry shTree1 [] locX = [[0]] ∧
      shadowAt shTree1 [0] = false := by
  decide

theorem liftSelf_withOwned (k : TNode) (b : Bool) :
    liftSelf (k.withOwned b) = liftSelf k := by
  cases k; rfl

theorem liftSelf_mk (tg l ow e cl s ks) :
    liftSelf (TNode.mk tg l ow e cl s ks) =
      ((tg == LiftTok) || hasTagSelf.hasTagList LiftTok ks) := rfl

theorem hasTagList_eq_false (tg : Tok) :
    ∀ ks : List TNode,
      hasTagSelf.hasTagList tg ks = false ↔
        ∀ k ∈ ks, hasTagSelf tg k = false := by
  intro ks
  induction ks with
  | nil => simp [hasTagSelf.hasTagList]
  | cons k rest ih =>
    simp only [hasTagSelf.hasTagList, Bool.or_eq_false_iff, ih,
      List.mem_cons]
    constructor
    · rintro ⟨h1, h2⟩ x hx
      rcases hx with rfl | hx
      · exact h1
      · exact h2 x hx
    · intro h
      exact ⟨h k (Or.inl rfl), fun x hx => h x (Or.inr hx)⟩

theorem liftStrict_eq_false (t : TNode) :
    liftStrict t = false ↔ ∀ k ∈ t.kids, liftSelf k = false := by
  unfold liftStrict liftSelf
  exact hasTagList_eq_false LiftTok t.kids

theorem insFlags_shape (n x : TNode) :
    (insFlags n x).1.tag = n.tag ∧ (insFlags n x).1.kids = n.kids := by
  unfold insFlags
  split
  · split <;> simp
  · split
    · split <;> simp
    · simp

theorem insFlagsMany_shape : ∀ (xs : List TNode) (n : TNode),
    (insFlagsMany n xs).1.tag = n.tag ∧ (insFlagsMany n xs).1.kids = n.kids := by
  intro xs
  induction xs with
  | nil => intro n; exact ⟨rfl, rfl⟩
  | cons x rest ih =>
    intro n
    simp only [insFlagsMany]
    obtain ⟨h1, h2⟩ := ih (insFlags n x).1
    obtain ⟨h3, h4⟩ := insFlags_shape n x
    exact ⟨h1.trans h3, h2.trans h4⟩

theorem foldEsc_shape (n : TNode) (pe pl : Bool) :
    (foldEsc n pe pl).1.tag = n.tag ∧ (foldEsc n pe pl).1.kids = n.kids := by
  unfold foldEsc
  by_cases h1 : pe = true <;> by_cases h2 : pl = true <;>
    by_cases h3 : n.ce = true <;>
    simp only [h1, h2, h3, if_true, if_false, Bool.false_eq_true,
      TNode.cl_withCe, TNode.tag_withCe, TNode.kids_withCe] <;>
    by_cases h4 : n.cl = true <;>
    simp [h4]

theorem take_splice {α : Type} (l B : List α) (it : Nat) :
    (l.take it ++ B ++ l.drop it).take (it + B.length) = l.take it ++ B := by
  rw [List.append_assoc, List.take_append_eq_append_take,
    List.take_append_eq_append_take]
  have hA : (l.take it).length = min it l.length := List.length_take it l
  have h1 : (l.take it).take (it + B.length) = l.take it := by
    apply List.take_of_length_le
    rw [hA]
    omega
  have h2 : B.take (it + B.length - (l.take it).length) = B := by
    apply List.take_of_length_le
    rw [hA]
    omega
  rw [h1, h2]
  by_cases hle : it ≤ l.length
  · have : it + B.length - (l.take it).length - B.length = 0 := by
      rw [hA]; omega
    rw [this, List.take_zero, List.append_nil]
  · have : l.drop it = [] := by
      apply List.drop_eq_nil_of_le
      omega
    rw [this, List.take_nil, List.append_nil]

theorem drop_splice {α : Type} (l B : List α) (it : Nat) :
    (l.take it ++ B ++ l.drop it).drop (it + B.length) = l.drop it := by
  rw [List.append_assoc, List.drop_append_eq_append_drop,
    List.drop_append_eq_append_drop]
  have hA : (l.take it).length = min it l.length := List.length_take it l
  have h1 : (l.take it).drop (it + B.length) = [] := by
    apply List.drop_eq_nil_of_le
    rw [hA]
    omega
  have h2 : B.drop (it + B.length - (l.take it).length) = [] := by
    apply List.drop_eq_nil_of_le
    rw [hA]
    omega
  rw [h1, h2]
  by_cases hle : it ≤ l.length
  · have : it + B.length - (l.take it).length - B.length = 0 := by
      rw [hA]; omega
    rw [this, List.drop_zero]
    rfl
  · have hnil : l.drop it = [] := by
      apply List.drop_eq_nil_of_le
      omega
    rw [hnil]
    simp

theorem take_set {α : Type} : ∀ (l : List α) (i : Nat) (x : α),
    (l.set i x).take i = l.take i := by
  intro l
  induction l with
  | nil => intro i x; simp
  | cons a as ih =>
    intro i x
    cases i with
    | zero => simp
    | succ j => simp [List.set_cons_succ, List.take_succ_cons, ih]

theorem drop_set_self {α : Type} (l : List α) (i : Nat) (x : α)
    (h : i < l.length) :
    (l.set i x).drop i = x :: l.drop (i + 1) := by
  rw [List.drop_set, if_neg (by omega : ¬i < i), Nat.sub_self,
    List.drop_eq_getElem_cons h]
  rfl

theorem set_eraseIdx_self {α : Type} (l : List α) (i : Nat) (x : α) :
    (l.set i x).eraseIdx i = l.eraseIdx i := by
  rw [List.eraseIdx_eq_take_drop_succ, List.eraseIdx_eq_take_drop_succ,
    take_set, List.drop_set]
  simp

/-- The envelope loop preserves the node's tag, keeps the processed prefix
free of `Lift` nodes (splices insert only lift-free envelope content),
leaves the unprocessed suffix alone, and propagates only envelopes it was
given. -/
theorem processEnvs_good : ∀ (envs : List TNode) (n : TNode) (it : Nat)
    n3 it3 sp ul pe pl,
    processEnvs n it envs = some (n3, it3, sp, ul, pe, pl) →
    (∀ L ∈ envs, ∀ k ∈ L.kids, liftSelf k = false) →
    (∀ k ∈ n.kids.take it, liftSelf k = false) →
    n3.tag = n.tag ∧
      (∀ k ∈ n3.kids.take it3, liftSelf k = false) ∧
      n3.kids.drop it3 = n.kids.drop it ∧
      ∀ L ∈ ul, L ∈ envs := by
  intro envs
  induction envs with
  | nil =>
    intro n it n3 it3 sp ul pe pl h _ hpre
    simp only [processEnvs, Option.some.injEq, Prod.mk.injEq] at h
    obtain ⟨h1, h2, -, h4, -⟩ := h
    subst h1; subst h2; subst h4
    exact ⟨rfl, hpre, rfl, by simp⟩
  | cons l rest ih =>
    intro n it n3 it3 sp ul pe pl h henv hpre
    simp only [processEnvs] at h
    cases hh : l.kids.head? with
    | none => rw [hh] at h; simp at h
    | some front =>
      rw [hh] at h
      by_cases htag : (front.tag == n.tag) = true
      · simp only [htag, if_true] at h
        set B := (l.kids.drop 1).map (fun x => x.withOwned true) with hB
        set N1 := (insFlagsMany n B).1.withKids
            ((insFlagsMany n B).1.kids.take it ++ B ++
              (insFlagsMany n B).1.kids.drop it) with hN1
        cases hrec : processEnvs N1 (it + B.length) rest with
        | none => rw [hrec] at h; simp at h
        | some r =>
          rw [hrec] at h
          obtain ⟨n3', it3', sp', ul', pe', pl'⟩ := r
          simp only [Option.some.injEq, Prod.mk.injEq] at h
          obtain ⟨rfl, rfl, rfl, rfl, rfl, rfl⟩ := h
          obtain ⟨hmt, hmk⟩ := insFlagsMany_shape B n
          have hBfree : ∀ k ∈ B, liftSelf k = false := by
            intro k hk
            rw [hB] at hk
            simp only [List.mem_map] at hk
            obtain ⟨k0, hk0, rfl⟩ := hk
            rw [liftSelf_withOwned]
            exact henv l (List.mem_cons_self l rest) k0
              (List.mem_of_mem_drop hk0)
          have hpre2 : ∀ k ∈ N1.kids.take (it + B.length),
              liftSelf k = false := by
            intro k hk
            rw [hN1, TNode.kids_withKids, hmk, take_splice] at hk
            rcases List.mem_append.mp hk with hk1 | hk2
            · exact hpre k hk1
            · exact hBfree k hk2
          obtain ⟨ht, htk, hdr, hul⟩ := ih _ _ _ _ _ _ _ _ hrec
            (fun L hL => henv L (List.mem_cons_of_mem l hL)) hpre2
          refine ⟨?_, htk, ?_, fun L hL => List.mem_cons_of_mem l (hul L hL)⟩
          · rw [ht, hN1, TNode.tag_withKids, hmt]
          · rw [hdr, hN1, TNode.kids_withKids, hmk, drop_splice]
      · simp only [htag, Bool.false_eq_true, if_false] at h
        cases hrec : processEnvs n it rest with
        | none => rw [hrec] at h; simp at h
        | some r =>
          rw [hrec] at h
          obtain ⟨n3', it3', sp', ul', pe', pl'⟩ := r
          simp only [Option.some.injEq, Prod.mk.injEq] at h
          obtain ⟨rfl, rfl, rfl, rfl, rfl, rfl⟩ := h
          obtain ⟨ht, htk, hdr, hul⟩ := ih _ _ _ _ _ _ _ _ hrec
            (fun L hL => henv L (List.mem_cons_of_mem l hL)) hpre
          refine ⟨ht, htk, hdr, ?_⟩
          intro L hL
          rcases List.mem_cons.mp hL with h' | hL2
          · rw [h']; exact List.mem_cons_self _ _
          · exact List.mem_cons_of_mem _ (hul L hL2)

theorem liftSelf_eq_tag_or (t : TNode) :
    liftSelf t = ((t.tag == LiftTok) || liftStrict t) := by
  cases t; rfl

/-- The invariant of `PassDef::lift`: a processed subtree keeps its tag
and retains no `Lift` node among its children's subtrees, and every
envelope passed upward is a `Lift` node all of whose children are free of
`Lift` nodes. -/
theorem liftGo_inv : ∀ fuel : Nat,
    (∀ c n2 ul pe pl, liftGoF fuel (.node c) = some (n2, ul, pe, pl) →
      n2.tag = c.tag ∧ (∀ k ∈ n2.kids, liftSelf k = false) ∧
        ∀ L ∈ ul, L.tag = LiftTok ∧ ∀ k ∈ L.kids, liftSelf k = false) ∧
    (∀ n it n2 ul pe pl, liftGoF fuel (.kids n it) = some (n2, ul, pe, pl) →
      (∀ k ∈ n.kids.take it, liftSelf k = false) →
      n2.tag = n.tag ∧ (∀ k ∈ n2.kids, liftSelf k = false) ∧
        ∀ L ∈ ul, L.tag = LiftTok ∧ ∀ k ∈ L.kids, liftSelf k = false) := by
  intro fuel
  induction fuel with
  | zero =>
    constructor
    · intro c n2 ul pe pl h; simp [liftGoF] at h
    · intro n it n2 ul pe pl h; simp [liftGoF] at h
  | succ f ih =>
    constructor
    · intro c n2 ul pe pl h
      simp only [liftGoF] at h
      obtain ⟨ht, hk, hl⟩ := ih.2 c 0 n2 ul pe pl h (by simp)
      exact ⟨ht, hk, hl⟩
    · intro n it n2 ul pe pl h hpre
      simp only [liftGoF] at h
      by_cases hit : (it == n.kids.length) = true
      · simp only [hit, if_true, Option.some.injEq, Prod.mk.injEq] at h
        obtain ⟨rfl, rfl, rfl, rfl⟩ := h
        have hiteq : it = n.kids.length := by simpa using hit
        refine ⟨rfl, ?_, by simp⟩
        intro k hk
        apply hpre
        rw [hiteq, List.take_length]
        exact hk
      · simp only [hit, Bool.false_eq_true, if_false] at h
        cases hg : n.kids.get? it with
        | none => rw [hg] at h; simp at h
        | some c =>
          simp only [hg] at h
          have hlt : it < n.kids.length := (List.get?_eq_some.mp hg).1
          cases hlift : liftGoF f (.node c) with
          | none => rw [hlift] at h; simp at h
          | some rc =>
            obtain ⟨c1, lifted0, peC, plC⟩ := rc
            simp only [hlift] at h
            obtain ⟨hc1tag, hc1kids, hlifted0⟩ :=
              ih.1 c c1 lifted0 peC plC hlift
            have hc1free : (c1.tag == LiftTok) = false →
                liftSelf c1 = false := by
              intro hf
              rw [liftSelf_eq_tag_or, hf, (liftStrict_eq_false c1).mpr hc1kids]
              rfl
            obtain ⟨hfet, hfek⟩ :=
              foldEsc_shape (n.setKid it c1) peC plC
            have hsetk : (n.setKid it c1).kids = n.kids.set it c1 := by
              simp [TNode.setKid]
            have hsett : (n.setKid it c1).tag = n.tag := by
              simp [TNode.setKid]
            by_cases hisl : (c1.tag == LiftTok) = true
            · simp only [hisl, if_true] at h
              cases hpr : processEnvs
                  ((foldEsc (n.setKid it c1) peC plC).1.withKids
                    ((foldEsc (n.setKid it c1) peC plC).1.kids.eraseIdx it))
                  it (c1 :: lifted0) with
              | none => rw [hpr] at h; simp at h
              | some rp =>
                obtain ⟨m2, it2, spliced, ulHere, xe, ye⟩ := rp
                simp only [hpr] at h
                cases hrec : liftGoF f (.kids m2
                    (if !true && !spliced then it2 + 1 else it2)) with
                | none => rw [hrec] at h; simp at h
                | some rr =>
                  obtain ⟨n3, ulRest, peR, plR⟩ := rr
                  simp only [hrec, Option.some.injEq, Prod.mk.injEq] at h
                  obtain ⟨rfl, rfl, rfl, rfl⟩ := h
                  have henvs : ∀ L ∈ c1 :: lifted0, ∀ k ∈ L.kids,
                      liftSelf k = false := by
                    intro L hL
                    rcases List.mem_cons.mp hL with h' | hL2
                    · rw [h']; exact hc1kids
                    · exact (hlifted0 L hL2).2
                  have hpre1 : ∀ k ∈ ((foldEsc (n.setKid it c1) peC plC).1.withKids
                      ((foldEsc (n.setKid it c1) peC plC).1.kids.eraseIdx it)).kids.take it,
                      liftSelf k = false := by
                    intro k hk
                    rw [TNode.kids_withKids, hfek, hsetk, set_eraseIdx_self,
                      List.eraseIdx_eq_take_drop_succ,
                      List.take_append_eq_append_take] at hk
                    have hlen : (n.kids.take it).length = it := by
                      rw [List.length_take]; omega
                    rw [List.take_of_length_le (by omega), hlen, Nat.sub_self,
                      List.take_zero, List.append_nil] at hk
                    exact hpre k hk
                  obtain ⟨hpt, hptk, hpdr, hpul⟩ :=
                    processEnvs_good (c1 :: lifted0) _ it m2 it2 spliced
                      ulHere xe ye hpr henvs hpre1
                  have hrecpre : ∀ k ∈ m2.kids.take
                      (if !true && !spliced then it2 + 1 else it2),
                      liftSelf k = false := by
                    simp only [Bool.not_true, Bool.false_and,
                      Bool.false_eq_true, if_false]
                    exact hptk
                  obtain ⟨hrt, hrk, hrl⟩ :=
                    ih.2 m2 _ n3 ulRest peR plR hrec hrecpre
                  refine ⟨?_, hrk, ?_⟩
                  · rw [hrt, hpt, TNode.tag_withKids, hfet, hsett]
                  · intro L hL
                    rcases List.mem_append.mp hL with hL1 | hL2
                    · have hmem := hpul L hL1
                      rcases List.mem_cons.mp hmem with h' | hL3
                      · rw [h']
                        exact ⟨by simpa using hisl, hc1kids⟩
                      · exact hlifted0 L hL3
                    · exact hrl L hL2
            · simp only [hisl, Bool.false_eq_true, if_false] at h
              cases hpr : processEnvs (foldEsc (n.setKid it c1) peC plC).1
                  it lifted0 with
              | none => rw [hpr] at h; simp at h
              | some rp =>
                obtain ⟨m2, it2, spliced, ulHere, xe, ye⟩ := rp
                simp only [hpr] at h
                cases hrec : liftGoF f (.kids m2
                    (if !false && !spliced then it2 + 1 else it2)) with
                | none => rw [hrec] at h; simp at h
                | some rr =>
                  obtain ⟨n3, ulRest, peR, plR⟩ := rr
                  simp only [hrec, Option.some.injEq, Prod.mk.injEq] at h
                  obtain ⟨rfl, rfl, rfl, rfl⟩ := h
                  have henvs : ∀ L ∈ lifted0, ∀ k ∈ L.kids,
                      liftSelf k = false := fun L hL => (hlifted0 L hL).2
                  have hpre1 : ∀ k ∈ (foldEsc (n.setKid it c1) peC plC).1.kids.take it,
                      liftSelf k = false := by
                    intro k hk
                    rw [hfek, hsetk, take_set] at hk
                    exact hpre k hk
                  obtain ⟨hpt, hptk, hpdr, hpul⟩ :=
                    processEnvs_good lifted0 _ it m2 it2 spliced
                      ulHere xe ye hpr henvs hpre1
                  have hdrc1 : m2.kids.drop it2 = c1 :: n.kids.drop (it + 1) := by
                    rw [hpdr, hfek, hsetk, drop_set_self _ _ _ hlt]
                  have hrecpre : ∀ k ∈ m2.kids.take
                      (if !false && !spliced then it2 + 1 else it2),
                      liftSelf k = false := by
                    cases hsp : spliced with
                    | true =>
                      simp only [hsp, Bool.not_true, Bool.not_false,
                        Bool.true_and, Bool.false_eq_true, if_false]
                      exact hptk
                    | false =>
                      simp only [hsp, Bool.not_false, Bool.true_and, if_true]
                      intro k hk
                      rw [List.take_succ] at hk
                      rcases List.mem_append.mp hk with hk1 | hk2
                      · exact hptk k hk1
                      · have hget : m2.kids[it2]? = some c1 := by
                          rw [← List.head?_drop, hdrc1]
                          rfl
                        rw [hget] at hk2
                        simp only [Option.toList_some, List.mem_singleton] at hk2
                        rw [hk2]
                        exact hc1free (by simpa using hisl)
                  obtain ⟨hrt, hrk, hrl⟩ :=
                    ih.2 m2 _ n3 ulRest peR plR hrec hrecpre
                  refine ⟨?_, hrk, ?_⟩
                  · rw [hrt, hpt, hfet, hsett]
                  · intro L hL
                    rcases List.mem_append.mp hL with hL1 | hL2
                    · exact hlifted0 L (hpul L hL1)
                    · exact hrl L hL2

/-- Whenever the `run` loop returns normally and there is no once-per-run
post hook, the returned tree has no `Lift` node strictly below the root:
the final iteration's `lift` removed them all. -/
theorem runGo_ok_noLift : ∀ (fuel : Nat) ps m t count csum t2 i c,
    ps.postOnce = none →
    runGo fuel ps m t count csum = .ok (t2, i, c) →
    liftStrict t2 = false := by
  intro fuel
  induction fuel with
  | zero =>
    intro ps m t count csum t2 i c _ h
    simp [runGo] at h
  | succ f ih =>
    intro ps m t count csum t2 i c hpost h
    simp only [runGo] at h
    cases ha : applyF f ps m t with
    | none => rw [ha] at h; simp at h
    | some ra =>
      obtain ⟨t1, ch, m1, e1, e2⟩ := ra
      simp only [ha] at h
      cases hl : liftF f t1 with
      | none => rw [hl] at h; simp at h
      | some rl =>
        obtain ⟨t2', ulx, f1, f2⟩ := rl
        simp only [hl] at h
        by_cases hul : (!ulx.isEmpty) = true
        · rw [if_pos hul] at h
          simp at h
        · rw [if_neg hul] at h
          have hfree : liftStrict t2' = false := by
            apply (liftStrict_eq_false t2').mpr
            exact ((liftGo_inv f).1 t1 t2' ulx f1 f2 hl).2.1
          by_cases ho : ps.once = true
          · rw [if_pos ho] at h
            simp only [finishRun, hpost, Except.ok.injEq, Prod.mk.injEq] at h
            obtain ⟨rfl, -, -⟩ := h
            exact hfree
          · rw [if_neg ho] at h
            by_cases hch : ch > 0
            · rw [if_pos hch] at h
              exact ih ps m1 t2' (count + 1) (csum + ch) t2 i c hpost h
            · rw [if_neg hch] at h
              simp only [finishRun, hpost, Except.ok.injEq, Prod.mk.injEq] at h
              obtain ⟨rfl, -, -⟩ := h
              exact hfree

/-- C2 (amended): for a pass with no once-per-run post hook, a normal
return of `run` leaves no node tagged `Lift` strictly below the root; and
whenever an iteration's `lift` reports envelopes that reached the pass
root unconsumed, `run` fails with the `UnresolvedLift` error.  (The
original claim fails for a root that is itself tagged `Lift`, which
`apply` skips and `lift` never inspects, and for passes whose post hook
re-inserts a `Lift`; see the counterexample.) -/
theorem claim2_run :
    (∀ fuel ps t t2 i c, ps.postOnce = none →
        runF fuel ps t = .ok (t2, i, c) → liftStrict t2 = false) ∧
      (∀ fuel ps m t count csum t1 ch m1 e1 e2 t2 ul f1 f2,
        applyF fuel ps m t = some (t1, ch, m1, e1, e2) →
        liftF fuel t1 = some (t2, ul, f1, f2) →
        ul ≠ [] →
        runGo (fuel + 1) ps m t count csum = .error .unresolvedLift) := by
  constructor
  · intro fuel ps t t2 i c hpost h
    simp only [runF] at h
    exact runGo_ok_noLift fuel ps _ _ 0 _ t2 i c hpost h
  · intro fuel ps m t count csum t1 ch m1 e1 e2 t2 ul f1 f2 h1 h2 hne
    have hemp : (!ul.isEmpty) = true := by
      cases hu : ul with
      | nil => exact absurd hu hne
      | cons a as => rfl
    simp only [runGo, h1, h2, hemp, if_true]

theorem claim2_run_witness :
    ({} : Pass).postOnce = none ∧
      runF 5 {} (leafN tokA) = .ok (leafN tokA, 1, 0) ∧
      liftStrict (leafN tokA) = false :=
  ⟨rfl, rfl, claim2_run.1 5 {} (leafN tokA) (leafN tokA) 1 0 rfl rfl⟩

/-- C2 counterexample: a root tagged `Lift` survives `run` unchanged (the
pass returns normally with a `Lift` node still in the tree), and a pass
whose once-per-run post hook appends a `Lift` leaf returns normally with
a `Lift` node strictly below the root. -/
theorem claim2_run_cex :
    runF 9 {} (leafN LiftTok) = .ok (leafN LiftTok, 1, 0) ∧
      liftSelf (leafN LiftTok) = true ∧
      (runTree (runF 9 psPostLift (leafN tokA))).map liftStrict = some true := by
  exact ⟨rfl, rfl, by decide⟩

theorem errSelf_eq_tag_or (t : TNode) :
    errSelf t = ((t.tag == ErrorTok) || errStrict t) := by
  cases t; rfl

theorem hasTagSelf_withOwned (tg : Tok) (k : TNode) (b : Bool) :
    hasTagSelf tg (k.withOwned b) = hasTagSelf tg k := by
  cases k; rfl

theorem hasTagList_append (tg : Tok) : ∀ l1 l2 : List TNode,
    hasTagSelf.hasTagList tg (l1 ++ l2) =
      (hasTagSelf.hasTagList tg l1 || hasTagSelf.hasTagList tg l2) := by
  intro l1 l2
  induction l1 with
  | nil => simp [hasTagSelf.hasTagList]
  | cons k rest ih =>
    show (hasTagSelf tg k || hasTagSelf.hasTagList tg (rest ++ l2)) = _
    rw [ih, show hasTagSelf.hasTagList tg (k :: rest) =
      (hasTagSelf tg k || hasTagSelf.hasTagList tg rest) from rfl, Bool.or_assoc]

theorem hasTagList_cons (tg : Tok) (k : TNode) (ks : List TNode) :
    hasTagSelf.hasTagList tg (k :: ks) =
      (hasTagSelf tg k || hasTagSelf.hasTagList tg ks) := rfl

theorem hasTagList_iff_mem (tg : Tok) : ∀ ks : List TNode,
    hasTagSelf.hasTagList tg ks = true ↔
      ∃ k ∈ ks, hasTagSelf tg k = true := by
  intro ks
  induction ks with
  | nil => simp [hasTagSelf.hasTagList]
  | cons k rest ih =>
    simp only [hasTagList_cons, Bool.or_eq_true, ih, List.mem_cons]
    constructor
    · rintro (h | ⟨x, hx, hh⟩)
      · exact ⟨k, Or.inl rfl, h⟩
      · exact ⟨x, Or.inr hx, hh⟩
    · rintro ⟨x, (rfl | hx), hh⟩
      · exact Or.inl hh
      · exact Or.inr ⟨x, hx, hh⟩

theorem flagInvList_iff_mem : ∀ ks : List TNode,
    flagInv.flagInvList ks = true ↔ ∀ k ∈ ks, flagInv k = true := by
  intro ks
  induction ks with
  | nil => simp [flagInv.flagInvList]
  | cons k rest ih =>
    simp only [flagInv.flagInvList, Bool.and_eq_true, ih, List.mem_cons]
    constructor
    · rintro ⟨h1, h2⟩ x (rfl | hx)
      · exact h1
      · exact h2 x hx
    · intro h
      exact ⟨h k (Or.inl rfl), fun x hx => h x (Or.inr hx)⟩

theorem flagInv_iff (n : TNode) :
    flagInv n = true ↔
      (n.ce = errStrict n ∧ (n.cl = true → liftStrict n = true) ∧
        ∀ k ∈ n.kids, flagInv k = true) := by
  cases n with
  | mk tg l ow e cl s ks =>
    show ((e == hasTagSelf.hasTagList ErrorTok ks) &&
        (!cl || hasTagSelf.hasTagList LiftTok ks) &&
        flagInv.flagInvList ks) = true ↔ _
    simp only [Bool.and_eq_true, beq_iff_eq, Bool.or_eq_true,
      Bool.not_eq_eq_eq_not, flagInvList_iff_mem]
    unfold errStrict liftStrict
    simp only [TNode.ce_mk, TNode.cl_mk, TNode.kids_mk]
    constructor
    · rintro ⟨⟨h1, h2⟩, h3⟩
      refine ⟨h1, ?_, h3⟩
      intro hcl
      rcases h2 with h2 | h2
      · rw [hcl] at h2; cases h2
      · exact h2
    · rintro ⟨h1, h2, h3⟩
      refine ⟨⟨h1, ?_⟩, h3⟩
      cases hcl : cl with
      | false => exact Or.inl (by simp)
      | true => exact Or.inr (h2 hcl)

theorem flagInv_withOwned (k : TNode) (b : Bool) :
    flagInv (k.withOwned b) = flagInv k := by
  cases k; rfl

theorem kids_decomp {α : Type} (l : List α) (i : Nat) (h : i < l.length) :
    l = l.take i ++ l[i] :: l.drop (i + 1) := by
  conv_lhs => rw [← List.take_append_drop i l]
  rw [List.drop_eq_getElem_cons h]

theorem insertIdx_decomp {α : Type} (x : α) : ∀ (pos : Nat) (l : List α),
    pos ≤ l.length → l.insertIdx pos x = l.take pos ++ x :: l.drop pos := by
  intro pos
  induction pos with
  | zero => intro l h; simp [List.insertIdx_zero]
  | succ n ih =>
    intro l h
    cases l with
    | nil => simp at h
    | cons a as =>
      simp only [List.insertIdx_succ_cons, List.take, List.drop, List.cons_append]
      rw [ih as (by simpa using h)]

theorem TNode.ce_withKids (n : TNode) (ks : List TNode) :
    (n.withKids ks).ce = n.ce := by cases n; rfl

theorem TNode.cl_withKids (n : TNode) (ks : List TNode) :
    (n.withKids ks).cl = n.cl := by cases n; rfl

theorem hasTagSelf_eq_tag_or (tg : Tok) (t : TNode) :
    hasTagSelf tg t = ((t.tag == tg) || hasTagSelf.hasTagList tg t.kids) := by
  cases t; rfl

theorem hasTagSelf_withCe (tg : Tok) (n : TNode) (b : Bool) :
    hasTagSelf tg (n.withCe b) = hasTagSelf tg n := by cases n; rfl

theorem hasTagSelf_withCl (tg : Tok) (n : TNode) (b : Bool) :
    hasTagSelf tg (n.withCl b) = hasTagSelf tg n := by cases n; rfl

theorem hasTagSelf_of_ce (n : TNode) (hi : flagInv n = true)
    (hce : n.ce = true) : hasTagSelf ErrorTok n = true := by
  have h1 := ((flagInv_iff n).mp hi).1
  rw [show errStrict n = hasTagSelf.hasTagList ErrorTok n.kids from rfl] at h1
  rw [hasTagSelf_eq_tag_or, ← h1, hce]
  simp

theorem hasTagSelf_of_cl (n : TNode) (hi : flagInv n = true)
    (hcl : n.cl = true) : hasTagSelf LiftTok n = true := by
  have h1 := ((flagInv_iff n).mp hi).2.1 hcl
  rw [show liftStrict n = hasTagSelf.hasTagList LiftTok n.kids from rfl] at h1
  rw [hasTagSelf_eq_tag_or, h1]
  simp

theorem hTL_set_congr (tg : Tok) (l : List TNode) (i : Nat) (x : TNode)
    (h : i < l.length) (hx : hasTagSelf tg x = hasTagSelf tg l[i]) :
    hasTagSelf.hasTagList tg (l.set i x) = hasTagSelf.hasTagList tg l := by
  rw [List.set_eq_take_cons_drop x h]
  conv_rhs => rw [kids_decomp l i h]
  rw [hasTagList_append, hasTagList_append, hasTagList_cons, hasTagList_cons, hx]

theorem hTL_set_of_self (tg : Tok) (l : List TNode) (i : Nat) (x : TNode)
    (h : i < l.length) (hx : hasTagSelf tg x = true) :
    hasTagSelf.hasTagList tg (l.set i x) = true := by
  rw [List.set_eq_take_cons_drop x h, hasTagList_append, hasTagList_cons, hx]
  simp

theorem hTL_set_transfer (tg : Tok) (l : List TNode) (i : Nat) (x : TNode)
    (h : i < l.length)
    (hx : hasTagSelf tg l[i] = true → hasTagSelf tg x = true)
    (hl : hasTagSelf.hasTagList tg l = true) :
    hasTagSelf.hasTagList tg (l.set i x) = true := by
  rw [kids_decomp l i h, hasTagList_append, hasTagList_cons] at hl
  rw [List.set_eq_take_cons_drop x h, hasTagList_append, hasTagList_cons]
  simp only [Bool.or_eq_true] at hl ⊢
  rcases hl with h1 | h2 | h3
  · exact Or.inl h1
  · exact Or.inr (Or.inl (hx h2))
  · exact Or.inr (Or.inr h3)

theorem flagInvList_set (l : List TNode) (i : Nat) (x : TNode)
    (h : ∀ k ∈ l, flagInv k = true) (hx : flagInv x = true) :
    flagInv.flagInvList (l.set i x) = true := by
  rw [flagInvList_iff_mem]
  intro k hk
  rcases List.mem_or_eq_of_mem_set hk with hk2 | rfl
  · exact h k hk2
  · exact hx

theorem TNode.kids_setKid (t : TNode) (i : Nat) (c : TNode) :
    (t.setKid i c).kids = t.kids.set i c := by cases t; rfl

theorem TNode.tag_setKid (t : TNode) (i : Nat) (c : TNode) :
    (t.setKid i c).tag = t.tag := by cases t; rfl

theorem TNode.ce_setKid (t : TNode) (i : Nat) (c : TNode) :
    (t.setKid i c).ce = t.ce := by cases t; rfl

theorem TNode.cl_setKid (t : TNode) (i : Nat) (c : TNode) :
    (t.setKid i c).cl = t.cl := by cases t; rfl

theorem TNode.setKid_setKid (t : TNode) (i : Nat) (c c2 : TNode) :
    (t.setKid i c).setKid i c2 = t.setKid i c2 := by
  cases t
  simp [TNode.setKid, TNode.withKids, List.set_set]

theorem hTL_shapeIns (tg : Tok) (c m n : TNode) (hs : ShapeIns c m n) :
    hasTagSelf.hasTagList tg m.kids =
      (hasTagSelf tg c || hasTagSelf.hasTagList tg n.kids) := by
  obtain ⟨_, _, _, l1, l2, hn2, hm⟩ := hs
  rw [hm, hn2, hasTagList_append, hasTagList_cons, hasTagSelf_withOwned,
    hasTagList_append, Bool.or_left_comm]

theorem flagInvList_shapeIns (c m n : TNode) (hs : ShapeIns c m n)
    (hc : flagInv c = true) (hn : ∀ k ∈ n.kids, flagInv k = true) :
    flagInv.flagInvList m.kids = true := by
  obtain ⟨_, _, _, l1, l2, hn2, hm⟩ := hs
  rw [hm, flagInvList_iff_mem]
  intro k hk
  simp only [List.mem_append, List.mem_cons] at hk
  rcases hk with hk | rfl | hk
  · exact hn k (by rw [hn2]; exact List.mem_append_left _ hk)
  · rw [flagInv_withOwned]; exact hc
  · exact hn k (by rw [hn2]; exact List.mem_append_right _ hk)

theorem walkErr (c : TNode) (f : TNode → TNode) (hc : flagInv c = true)
    (hce : hasTagSelf ErrorTok c = true) :
    ∀ (p : List Nat) (t r w : TNode) (b : Bool),
      (∀ n, nodeAt t p = some n → ShapeIns c (f n) n) →
      flagInv t = true → updateAt t p f = some r →
      propagateFlag TNode.ce (fun n => n.withCe true) r p = (w, b) →
      flagInv w = true ∧ w.ce = true ∧ (b = false → t.ce = true) ∧
        (hasTagSelf LiftTok t = true → hasTagSelf LiftTok w = true) := by
  intro p
  induction p with
  | nil =>
    intro t r w b hf ht hu hw
    simp only [updateAt, Option.some.injEq] at hu
    have hs := hf t rfl
    rw [hu] at hs
    obtain ⟨hte, htcl, htk⟩ := (flagInv_iff t).mp ht
    have htclL : t.cl = true → hasTagSelf.hasTagList LiftTok t.kids = true := htcl
    have htagr : r.tag = t.tag := hs.1
    have hcer : r.ce = t.ce := hs.2.1
    have hclr : r.cl = t.cl := hs.2.2.1
    have hErr : hasTagSelf.hasTagList ErrorTok r.kids = true := by
      rw [hTL_shapeIns ErrorTok c r t hs, hce]; rfl
    have hLift : hasTagSelf.hasTagList LiftTok r.kids =
        (hasTagSelf LiftTok c || hasTagSelf.hasTagList LiftTok t.kids) :=
      hTL_shapeIns LiftTok c r t hs
    have hInv : flagInv.flagInvList r.kids = true :=
      flagInvList_shapeIns c r t hs hc htk
    simp only [propagateFlag] at hw
    by_cases hb : r.ce = true
    · rw [if_pos hb] at hw
      injection hw with h1 h2
      subst h1
      subst h2
      refine ⟨?_, hb, fun _ => by rw [← hcer]; exact hb, ?_⟩
      · rw [flagInv_iff]
        refine ⟨?_, ?_, (flagInvList_iff_mem r.kids).mp hInv⟩
        · rw [hb]; exact hErr.symm
        · intro hcl2
          rw [hclr] at hcl2
          show hasTagSelf.hasTagList LiftTok r.kids = true
          rw [hLift, htclL hcl2]; simp
      · intro hlt
        rw [hasTagSelf_eq_tag_or] at hlt ⊢
        rw [htagr, hLift]
        rcases Bool.or_eq_true _ _ |>.mp hlt with h1 | h2
        · rw [h1]; rfl
        · rw [h2]; simp
    · rw [if_neg hb] at hw
      injection hw with h1 h2
      subst h1
      subst h2
      refine ⟨?_, by rw [TNode.ce_withCe], fun hx => absurd hx (by decide), ?_⟩
      · rw [flagInv_iff]
        refine ⟨?_, ?_, ?_⟩
        · rw [TNode.ce_withCe]
          show true = hasTagSelf.hasTagList ErrorTok (r.withCe true).kids
          rw [TNode.kids_withCe, hErr]
        · intro hcl2
          rw [TNode.cl_withCe, hclr] at hcl2
          show hasTagSelf.hasTagList LiftTok (r.withCe true).kids = true
          rw [TNode.kids_withCe, hLift, htclL hcl2]; simp
        · rw [TNode.kids_withCe]
          exact (flagInvList_iff_mem r.kids).mp hInv
      · intro hlt
        rw [hasTagSelf_withCe]
        rw [hasTagSelf_eq_tag_or] at hlt ⊢
        rw [htagr, hLift]
        rcases Bool.or_eq_true _ _ |>.mp hlt with h1 | h2
        · rw [h1]; rfl
        · rw [h2]; simp
  | cons i p ih =>
    intro t r w b hf ht hu hw
    obtain ⟨hte, htcl, htk⟩ := (flagInv_iff t).mp ht
    simp only [updateAt] at hu
    rcases hg : t.kids.get? i with _ | c0
    · simp only [hg] at hu
      cases hu
    simp only [hg] at hu
    rcases hu2 : updateAt c0 p f with _ | c2
    · simp only [hu2] at hu
      cases hu
    simp only [hu2, Option.some.injEq] at hu
    subst hu
    have hlt : i < t.kids.length := (List.get?_eq_some.mp hg).1
    have hgi : t.kids[i] = c0 := by
      have := (List.get?_eq_some.mp hg).2
      simpa using this
    have hc0 : flagInv c0 = true := htk c0 (List.get?_mem hg)
    have hf2 : ∀ n, nodeAt c0 p = some n → ShapeIns c (f n) n := by
      intro n hn
      exact hf n (by simp only [nodeAt, hg]; exact hn)
    simp only [propagateFlag, TNode.kids_setKid,
      List.get?_set_eq_of_lt c2 hlt] at hw
    rcases hr2 : propagateFlag TNode.ce (fun n => n.withCe true) c2 p
      with ⟨c2w, b2⟩
    rw [hr2] at hw
    obtain ⟨hw1, hw2, hw3, hw4⟩ := ih c0 c2 c2w b2 hf2 hc0 hu2 hr2
    rw [TNode.setKid_setKid] at hw
    have hkids : (t.setKid i c2w).kids = t.kids.set i c2w := TNode.kids_setKid ..
    have hErrSet : hasTagSelf.hasTagList ErrorTok (t.kids.set i c2w) = true :=
      hTL_set_of_self ErrorTok t.kids i c2w hlt (hasTagSelf_of_ce c2w hw1 hw2)
    have hLiftSet : hasTagSelf.hasTagList LiftTok t.kids = true →
        hasTagSelf.hasTagList LiftTok (t.kids.set i c2w) = true := by
      intro h
      exact hTL_set_transfer LiftTok t.kids i c2w hlt
        (by rw [hgi]; exact hw4) h
    have hInvSet : flagInv.flagInvList (t.kids.set i c2w) = true :=
      flagInvList_set t.kids i c2w htk hw1
    have hT1inv : t.ce = true → flagInv (t.setKid i c2w) = true := by
      intro htce
      rw [flagInv_iff]
      refine ⟨?_, ?_, ?_⟩
      · rw [TNode.ce_setKid, htce]
        show true = hasTagSelf.hasTagList ErrorTok (t.setKid i c2w).kids
        rw [hkids, hErrSet]
      · intro hcl2
        rw [TNode.cl_setKid] at hcl2
        show hasTagSelf.hasTagList LiftTok (t.setKid i c2w).kids = true
        rw [hkids]
        exact hLiftSet (htcl hcl2)
      · rw [hkids]
        exact (flagInvList_iff_mem _).mp hInvSet
    have hT1lift : hasTagSelf LiftTok t = true →
        hasTagSelf LiftTok (t.setKid i c2w) = true := by
      intro hlt2
      rw [hasTagSelf_eq_tag_or] at hlt2 ⊢
      rw [TNode.tag_setKid, hkids]
      rcases Bool.or_eq_true _ _ |>.mp hlt2 with h1 | h2
      · rw [h1]; rfl
      · rw [hLiftSet h2]; simp
    cases b2 with
    | false =>
      have htce : t.ce = true := by
        rw [hte]
        show hasTagSelf.hasTagList ErrorTok t.kids = true
        rw [hasTagList_iff_mem]
        exact ⟨c0, List.get?_mem hg, hasTagSelf_of_ce c0 hc0 (hw3 rfl)⟩
      simp only [Bool.false_eq_true, if_false] at hw
      injection hw with h1 h2
      subst h1
      subst h2
      exact ⟨hT1inv htce, by rw [TNode.ce_setKid]; exact htce,
        fun _ => htce, hT1lift⟩
    | true =>
      simp only [if_true] at hw
      by_cases htce : (t.setKid i c2w).ce = true
      · rw [if_pos htce] at hw
        injection hw with h1 h2
        subst h1
        subst h2
        rw [TNode.ce_setKid] at htce
        exact ⟨hT1inv htce, by rw [TNode.ce_setKid]; exact htce,
          fun _ => htce, hT1lift⟩
      · rw [if_neg htce] at hw
        injection hw with h1 h2
        subst h1
        subst h2
        rw [TNode.ce_setKid] at htce
        have htcef : t.ce = false := by
          cases h2 : t.ce
          · rfl
          · exact absurd h2 htce
        refine ⟨?_, by rw [TNode.ce_withCe], fun hx => absurd hx (by decide), ?_⟩
        · rw [flagInv_iff]
          refine ⟨?_, ?_, ?_⟩
          · rw [TNode.ce_withCe]
            show true = hasTagSelf.hasTagList ErrorTok
              ((t.setKid i c2w).withCe true).kids
            rw [TNode.kids_withCe, hkids, hErrSet]
          · intro hcl2
            rw [TNode.cl_withCe, TNode.cl_setKid] at hcl2
            show hasTagSelf.hasTagList LiftTok
              ((t.setKid i c2w).withCe true).kids = true
            rw [TNode.kids_withCe, hkids]
            exact hLiftSet (htcl hcl2)
          · rw [TNode.kids_withCe, hkids]
            exact (flagInvList_iff_mem _).mp hInvSet
        · intro hlt2
          rw [hasTagSelf_withCe]
          exact hT1lift hlt2

theorem walkLift (c : TNode) (f : TNode → TNode) (hc : flagInv c = true)
    (hcl : hasTagSelf LiftTok c = true)
    (hne : hasTagSelf ErrorTok c = false) :
    ∀ (p : List Nat) (t r w : TNode) (b : Bool),
      (∀ n, nodeAt t p = some n → ShapeIns c (f n) n) →
      flagInv t = true → updateAt t p f = some r →
      propagateFlag TNode.cl (fun n => n.withCl true) r p = (w, b) →
      flagInv w = true ∧ hasTagSelf LiftTok w = true ∧
        hasTagSelf ErrorTok w = hasTagSelf ErrorTok t := by
  intro p
  induction p with
  | nil =>
    intro t r w b hf ht hu hw
    simp only [updateAt, Option.some.injEq] at hu
    have hs := hf t rfl
    rw [hu] at hs
    obtain ⟨hte, htcl, htk⟩ := (flagInv_iff t).mp ht
    have htagr : r.tag = t.tag := hs.1
    have hcer : r.ce = t.ce := hs.2.1
    have hErr : hasTagSelf.hasTagList ErrorTok r.kids =
        hasTagSelf.hasTagList ErrorTok t.kids := by
      rw [hTL_shapeIns ErrorTok c r t hs, hne]; rfl
    have hLift : hasTagSelf.hasTagList LiftTok r.kids = true := by
      rw [hTL_shapeIns LiftTok c r t hs, hcl]; rfl
    have hInv : flagInv.flagInvList r.kids = true :=
      flagInvList_shapeIns c r t hs hc htk
    have hrinv : flagInv r = true := by
      rw [flagInv_iff]
      refine ⟨?_, ?_, (flagInvList_iff_mem r.kids).mp hInv⟩
      · show r.ce = hasTagSelf.hasTagList ErrorTok r.kids
        rw [hcer, hErr]; exact hte
      · intro _
        exact hLift
    have hrlift : hasTagSelf LiftTok r = true := by
      rw [hasTagSelf_eq_tag_or, hLift]; simp
    have hrerr : hasTagSelf ErrorTok r = hasTagSelf ErrorTok t := by
      rw [hasTagSelf_eq_tag_or, hasTagSelf_eq_tag_or, htagr, hErr]
    simp only [propagateFlag] at hw
    by_cases hb : r.cl = true
    · rw [if_pos hb] at hw
      injection hw with h1 h2
      subst h1
      subst h2
      exact ⟨hrinv, hrlift, hrerr⟩
    · rw [if_neg hb] at hw
      injection hw with h1 h2
      subst h1
      subst h2
      refine ⟨?_, by rw [hasTagSelf_withCl]; exact hrlift,
        by rw [hasTagSelf_withCl]; exact hrerr⟩
      rw [flagInv_iff]
      refine ⟨?_, ?_, ?_⟩
      · rw [TNode.ce_withCl]
        show r.ce = hasTagSelf.hasTagList ErrorTok (r.withCl true).kids
        rw [TNode.kids_withCl, hcer, hErr]; exact hte
      · intro _
        show hasTagSelf.hasTagList LiftTok (r.withCl true).kids = true
        rw [TNode.kids_withCl]; exact hLift
      · rw [TNode.kids_withCl]
        exact (flagInvList_iff_mem r.kids).mp hInv
  | cons i p ih =>
    intro t r w b hf ht hu hw
    obtain ⟨hte, htcl, htk⟩ := (flagInv_iff t).mp ht
    simp only [updateAt] at hu
    rcases hg : t.kids.get? i with _ | c0
    · simp only [hg] at hu
      cases hu
    simp only [hg] at hu
    rcases hu2 : updateAt c0 p f with _ | c2
    · simp only [hu2] at hu
      cases hu
    simp only [hu2, Option.some.injEq] at hu
    subst hu
    have hlt : i < t.kids.length := (List.get?_eq_some.mp hg).1
    have hgi : t.kids[i] = c0 := by
      have := (List.get?_eq_some.mp hg).2
      simpa using this
    have hc0 : flagInv c0 = true := htk c0 (List.get?_mem hg)
    have hf2 : ∀ n, nodeAt c0 p = some n → ShapeIns c (f n) n := by
      intro n hn
      exact hf n (by simp only [nodeAt, hg]; exact hn)
    simp only [propagateFlag, TNode.kids_setKid,
      List.get?_set_eq_of_lt c2 hlt] at hw
    rcases hr2 : propagateFlag TNode.cl (fun n => n.withCl true) c2 p
      with ⟨c2w, b2⟩
    rw [hr2] at hw
    obtain ⟨hw1, hw2, hw3⟩ := ih c0 c2 c2w b2 hf2 hc0 hu2 hr2
    rw [TNode.setKid_setKid] at hw
    have hkids : (t.setKid i c2w).kids = t.kids.set i c2w := TNode.kids_setKid ..
    have hErrSet : hasTagSelf.hasTagList ErrorTok (t.kids.set i c2w) =
        hasTagSelf.hasTagList ErrorTok t.kids :=
      hTL_set_congr ErrorTok t.kids i c2w hlt (by rw [hgi]; exact hw3)
    have hLiftSet : hasTagSelf.hasTagList LiftTok (t.kids.set i c2w) = true :=
      hTL_set_of_self LiftTok t.kids i c2w hlt hw2
    have hInvSet : flagInv.flagInvList (t.kids.set i c2w) = true :=
      flagInvList_set t.kids i c2w htk hw1
    have hT1inv : flagInv (t.setKid i c2w) = true := by
      rw [flagInv_iff]
      refine ⟨?_, ?_, ?_⟩
      · rw [TNode.ce_setKid]
        show t.ce = hasTagSelf.hasTagList ErrorTok (t.setKid i c2w).kids
        rw [hkids, hErrSet]; exact hte
      · intro _
        show hasTagSelf.hasTagList LiftTok (t.setKid i c2w).kids = true
        rw [hkids]; exact hLiftSet
      · rw [hkids]
        exact (flagInvList_iff_mem _).mp hInvSet
    have hT1lift : hasTagSelf LiftTok (t.setKid i c2w) = true := by
      rw [hasTagSelf_eq_tag_or, hkids, hLiftSet]; simp
    have hT1err : hasTagSelf ErrorTok (t.setKid i c2w) =
        hasTagSelf ErrorTok t := by
      rw [hasTagSelf_eq_tag_or, hasTagSelf_eq_tag_or, TNode.tag_setKid,
        hkids, hErrSet]
    cases b2 with
    | false =>
      simp only [Bool.false_eq_true, if_false] at hw
      injection hw with h1 h2
      subst h1
      subst h2
      exact ⟨hT1inv, hT1lift, hT1err⟩
    | true =>
      simp only [if_true] at hw
      by_cases htce : (t.setKid i c2w).cl = true
      · rw [if_pos htce] at hw
        injection hw with h1 h2
        subst h1
        subst h2
        exact ⟨hT1inv, hT1lift, hT1err⟩
      · rw [if_neg htce] at hw
        injection hw with h1 h2
        subst h1
        subst h2
        refine ⟨?_, by rw [hasTagSelf_withCl]; exact hT1lift,
          by rw [hasTagSelf_withCl]; exact hT1err⟩
        rw [flagInv_iff]
        refine ⟨?_, ?_, ?_⟩
        · rw [TNode.ce_withCl, TNode.ce_setKid]
          show t.ce = hasTagSelf.hasTagList ErrorTok
            ((t.setKid i c2w).withCl true).kids
          rw [TNode.kids_withCl, hkids, hErrSet]; exact hte
        · intro _
          show hasTagSelf.hasTagList LiftTok
            ((t.setKid i c2w).withCl true).kids = true
          rw [TNode.kids_withCl, hkids]; exact hLiftSet
        · rw [TNode.kids_withCl, hkids]
          exact (flagInvList_iff_mem _).mp hInvSet

theorem walkNeutral (c : TNode) (f : TNode → TNode) (hc : flagInv c = true)
    (hne : hasTagSelf ErrorTok c = false) :
    ∀ (p : List Nat) (t r : TNode),
      (∀ n, nodeAt t p = some n → ShapeIns c (f n) n) →
      flagInv t = true → updateAt t p f = some r →
      flagInv r = true ∧ hasTagSelf ErrorTok r = hasTagSelf ErrorTok t ∧
        (hasTagSelf LiftTok t = true → hasTagSelf LiftTok r = true) := by
  intro p
  induction p with
  | nil =>
    intro t r hf ht hu
    simp only [updateAt, Option.some.injEq] at hu
    have hs := hf t rfl
    rw [hu] at hs
    obtain ⟨hte, htcl, htk⟩ := (flagInv_iff t).mp ht
    have htclL : t.cl = true →
        hasTagSelf.hasTagList LiftTok t.kids = true := htcl
    have htagr : r.tag = t.tag := hs.1
    have hcer : r.ce = t.ce := hs.2.1
    have hclr : r.cl = t.cl := hs.2.2.1
    have hErr : hasTagSelf.hasTagList ErrorTok r.kids =
        hasTagSelf.hasTagList ErrorTok t.kids := by
      rw [hTL_shapeIns ErrorTok c r t hs, hne]; rfl
    have hLift : hasTagSelf.hasTagList LiftTok r.kids =
        (hasTagSelf LiftTok c || hasTagSelf.hasTagList LiftTok t.kids) :=
      hTL_shapeIns LiftTok c r t hs
    have hInv : flagInv.flagInvList r.kids = true :=
      flagInvList_shapeIns c r t hs hc htk
    refine ⟨?_, ?_, ?_⟩
    · rw [flagInv_iff]
      refine ⟨?_, ?_, (flagInvList_iff_mem r.kids).mp hInv⟩
      · show r.ce = hasTagSelf.hasTagList ErrorTok r.kids
        rw [hcer, hErr]; exact hte
      · intro hcl2
        rw [hclr] at hcl2
        show hasTagSelf.hasTagList LiftTok r.kids = true
        rw [hLift, htclL hcl2]; simp
    · rw [hasTagSelf_eq_tag_or, hasTagSelf_eq_tag_or, htagr, hErr]
    · intro hlt2
      rw [hasTagSelf_eq_tag_or] at hlt2 ⊢
      rw [htagr, hLift]
      rcases Bool.or_eq_true _ _ |>.mp hlt2 with h1 | h2
      · rw [h1]; rfl
      · rw [h2]; simp
  | cons i p ih =>
    intro t r hf ht hu
    obtain ⟨hte, htcl, htk⟩ := (flagInv_iff t).mp ht
    simp only [updateAt] at hu
    rcases hg : t.kids.get? i with _ | c0
    · simp only [hg] at hu
      cases hu
    simp only [hg] at hu
    rcases hu2 : updateAt c0 p f with _ | c2
    · simp only [hu2] at hu
      cases hu
    simp only [hu2, Option.some.injEq] at hu
    subst hu
    have hlt : i < t.kids.length := (List.get?_eq_some.mp hg).1
    have hgi : t.kids[i] = c0 := by
      have := (List.get?_eq_some.mp hg).2
      simpa using this
    have hc0 : flagInv c0 = true := htk c0 (List.get?_mem hg)
    have hf2 : ∀ n, nodeAt c0 p = some n → ShapeIns c (f n) n := by
      intro n hn
      exact hf n (by simp only [nodeAt, hg]; exact hn)
    obtain ⟨hw1, hw2, hw3⟩ := ih c0 c2 hf2 hc0 hu2
    have hkids : (t.setKid i c2).kids = t.kids.set i c2 := TNode.kids_setKid ..
    have hErrSet : hasTagSelf.hasTagList ErrorTok (t.kids.set i c2) =
        hasTagSelf.hasTagList ErrorTok t.kids :=
      hTL_set_congr ErrorTok t.kids i c2 hlt (by rw [hgi]; exact hw2)
    have hLiftSet : hasTagSelf.hasTagList LiftTok t.kids = true →
        hasTagSelf.hasTagList LiftTok (t.kids.set i c2) = true := by
      intro h
      exact hTL_set_transfer LiftTok t.kids i c2 hlt
        (by rw [hgi]; exact hw3) h
    have hInvSet : flagInv.flagInvList (t.kids.set i c2) = true :=
      flagInvList_set t.kids i c2 htk hw1
    refine ⟨?_, ?_, ?_⟩
    · rw [flagInv_iff]
      refine ⟨?_, ?_, ?_⟩
      · rw [TNode.ce_setKid]
        show t.ce = hasTagSelf.hasTagList ErrorTok (t.setKid i c2).kids
        rw [hkids, hErrSet]; exact hte
      · intro hcl2
        rw [TNode.cl_setKid] at hcl2
        show hasTagSelf.hasTagList LiftTok (t.setKid i c2).kids = true
        rw [hkids]
        exact hLiftSet (htcl hcl2)
      · rw [hkids]
        exact (flagInvList_iff_mem _).mp hInvSet
    · rw [hasTagSelf_eq_tag_or, hasTagSelf_eq_tag_or, TNode.tag_setKid,
        hkids, hErrSet]
    · intro hlt2
      rw [hasTagSelf_eq_tag_or] at hlt2 ⊢
      rw [TNode.tag_setKid, hkids]
      rcases Bool.or_eq_true _ _ |>.mp hlt2 with h1 | h2
      · rw [h1]; rfl
      · rw [hLiftSet h2]; simp

theorem addFlagsAt_pres (root r : TNode) (p : List Nat) (c : TNode)
    (f : TNode → TNode) (hc : flagInv c = true)
    (hf : ∀ n, nodeAt root p = some n → ShapeIns c (f n) n)
    (ht : flagInv root = true)
    (hu : updateAt root p f = some r) :
    flagInv (addFlagsAt r p c) = true := by
  unfold addFlagsAt
  by_cases h1 : (c.tag == ErrorTok || c.ce) = true
  · rw [if_pos h1]
    have hce : hasTagSelf ErrorTok c = true := by
      rcases Bool.or_eq_true _ _ |>.mp h1 with h2 | h2
      · rw [hasTagSelf_eq_tag_or, h2]; rfl
      · exact hasTagSelf_of_ce c hc h2
    rcases hw : propagateFlag TNode.ce (fun n => n.withCe true) r p with ⟨w, b⟩
    exact (walkErr c f hc hce p root r w b hf ht hu hw).1
  · rw [if_neg h1]
    simp only [Bool.or_eq_true, not_or, Bool.not_eq_true] at h1
    have hne : hasTagSelf ErrorTok c = false := by
      rw [hasTagSelf_eq_tag_or, h1.1]
      have h3 := ((flagInv_iff c).mp hc).1
      rw [show errStrict c = hasTagSelf.hasTagList ErrorTok c.kids from rfl]
        at h3
      rw [← h3, h1.2]; rfl
    by_cases h2 : (c.tag == LiftTok || c.cl) = true
    · rw [if_pos h2]
      have hcl2 : hasTagSelf LiftTok c = true := by
        rcases Bool.or_eq_true _ _ |>.mp h2 with h3 | h3
        · rw [hasTagSelf_eq_tag_or, h3]; rfl
        · exact hasTagSelf_of_cl c hc h3
      rcases hw : propagateFlag TNode.cl (fun n => n.withCl true) r p
        with ⟨w, b⟩
      exact (walkLift c f hc hcl2 hne p root r w b hf ht hu hw).1
    · rw [if_neg h2]
      exact (walkNeutral c f hc hne p root r hf ht hu).1

theorem buildStep_pres (t : TNode) (op : BuildOp) (r : TNode)
    (ht : flagInv t = true) (hp : flagInv op.payload = true)
    (h : buildStep t op = some r) : flagInv r = true := by
  cases op with
  | pushBack p c =>
    simp only [buildStep, pushBackAt] at h
    rcases hu : updateAt t p
        (fun n => n.withKids (n.kids ++ [c.withOwned true])) with _ | r2
    · simp only [hu] at h
      cases h
    simp only [hu, Option.some.injEq] at h
    subst h
    refine addFlagsAt_pres t r2 p c _ hp ?_ ht hu
    intro n _
    refine ⟨TNode.tag_withKids .., TNode.ce_withKids .., TNode.cl_withKids ..,
      n.kids, [], (List.append_nil n.kids).symm, ?_⟩
    rw [TNode.kids_withKids]
  | pushFront p c =>
    simp only [buildStep, pushFrontAt] at h
    rcases hu : updateAt t p
        (fun n => n.withKids (c.withOwned true :: n.kids)) with _ | r2
    · simp only [hu] at h
      cases h
    simp only [hu, Option.some.injEq] at h
    subst h
    refine addFlagsAt_pres t r2 p c _ hp ?_ ht hu
    intro n _
    exact ⟨TNode.tag_withKids .., TNode.ce_withKids .., TNode.cl_withKids ..,
      [], n.kids, rfl, TNode.kids_withKids ..⟩
  | insertChild p pos c =>
    simp only [buildStep, insertChildAt] at h
    rcases hn0 : nodeAt t p with _ | n0
    · simp only [hn0] at h
      cases h
    simp only [hn0] at h
    by_cases hpos : pos ≤ n0.kids.length
    · rw [if_pos hpos] at h
      rcases hu : updateAt t p
          (fun n => n.withKids (n.kids.insertIdx pos (c.withOwned true)))
          with _ | r2
      · simp only [hu] at h
        cases h
      simp only [hu, Option.some.injEq] at h
      subst h
      refine addFlagsAt_pres t r2 p c _ hp ?_ ht hu
      intro n hn
      rw [hn0, Option.some.injEq] at hn
      subst hn
      refine ⟨TNode.tag_withKids .., TNode.ce_withKids .., TNode.cl_withKids ..,
        n0.kids.take pos, n0.kids.drop pos,
        (List.take_append_drop pos n0.kids).symm, ?_⟩
      rw [TNode.kids_withKids]
      exact insertIdx_decomp (c.withOwned true) pos n0.kids hpos
    · rw [if_neg hpos] at h
      cases h

theorem buildRun_pres : ∀ (ops : List BuildOp) (t r : TNode),
    flagInv t = true → (∀ op ∈ ops, flagInv op.payload = true) →
    buildRun t ops = some r → flagInv r = true := by
  intro ops
  induction ops with
  | nil =>
    intro t r ht _ h
    simp only [buildRun, Option.some.injEq] at h
    subst h
    exact ht
  | cons op rest ih =>
    intro t r ht hp h
    simp only [buildRun] at h
    rcases hs : buildStep t op with _ | t2
    · simp only [hs] at h
      cases h
    simp only [hs] at h
    exact ih t2 r
      (buildStep_pres t op t2 ht (hp op (List.mem_cons_self op rest)) hs)
      (fun o ho => hp o (List.mem_cons_of_mem op ho)) h

/-- C1: a freshly created node has clear flags satisfying the maintained
invariant; every tree built from flag-invariant pieces by the owning
mutators `push_back`, `push_front` and `insert` satisfies it at every
node; and at any such node `contains_error` holds exactly when a STRICT
descendant is tagged `Error`, while `contains_lift` implies (one direction
only) a strict descendant tagged `Lift`.  The claim's descendant-or-self
biconditional for both flags over all mutators (including `replace` and
`push_back_ephemeral`) is refuted by `claim1_flags_cex`. -/
theorem claim1_flags :
    (∀ (tg : Tok) (l : TLoc), flagInv (createNode tg l) = true) ∧
    (∀ (ops : List BuildOp) (t r : TNode),
      flagInv t = true → (∀ op ∈ ops, flagInv op.payload = true) →
      buildRun t ops = some r → flagInv r = true) ∧
    (∀ n : TNode, flagInv n = true →
      (n.ce = true ↔ errStrict n = true) ∧
      (n.cl = true → liftStrict n = true) ∧
      ∀ k ∈ n.kids, flagInv k = true) := by
  refine ⟨fun tg l => rfl, buildRun_pres, ?_⟩
  intro n hn
  obtain ⟨h1, h2, h3⟩ := (flagInv_iff n).mp hn
  exact ⟨by rw [h1], h2, h3⟩

theorem claim1_flags_witness :
    flagInv (createNode tokA) = true ∧
    buildRun (createNode tokA) [.pushBack [] (createNode ErrorTok)] =
      some c1w ∧
    flagInv c1w = true ∧ (c1w.ce = true ↔ errStrict c1w = true) :=
  ⟨claim1_flags.1 tokA {}, rfl,
    claim1_flags.2.1 [.pushBack [] (createNode ErrorTok)] (createNode tokA)
      c1w rfl
      (by
        intro op hop
        rw [List.mem_singleton] at hop
        subst hop
        rfl)
      rfl,
    (claim1_flags.2.2 c1w rfl).1⟩

/-- C1 counterexample against the claim as stated: (a) the
descendant-or-self reading fails - the `Error` child inside `c1w` has tag
`Error` but a clear `contains_error`; (b) the `else if` in `add_flags`
propagates only the error flag when a child contains both markers, so
`c1both` has a strict `Lift` descendant but `contains_lift` clear; (c)
`push_back_ephemeral` sets no flags, so `c1eph` contains an `Error` with
`contains_error` clear; (d) `replace` never clears flags, so `c1repl`
keeps `contains_error` with no `Error` left anywhere below it. -/
theorem claim1_flags_cex :
    (nodeAt c1w [0] = some c1node0 ∧ c1node0.tag = ErrorTok ∧
      errSelf c1node0 = true ∧ c1node0.ce = false) ∧
    (liftStrict c1both = true ∧ c1both.cl = false) ∧
    (errSelf c1eph = true ∧ c1eph.ce = false) ∧
    (c1repl.ce = true ∧ errSelf c1repl = false) :=
  ⟨⟨rfl, rfl, by decide, by decide⟩, ⟨by decide, by decide⟩,
    ⟨by decide, by decide⟩, ⟨by decide, by decide⟩⟩

theorem set_get?_self {α : Type} : ∀ (l : List α) (i : Nat) (c : α),
    l.get? i = some c → l.set i c = l := by
  intro l
  induction l with
  | nil => intro i c h; cases h
  | cons a as ih =>
    intro i c h
    cases i with
    | zero =>
      simp only [List.get?, Option.some.injEq] at h
      subst h
      rfl
    | succ j =>
      simp only [List.get?] at h
      show a :: as.set j c = a :: as
      rw [ih j c h]

theorem setKid_self (n : TNode) (i : Nat) (c : TNode)
    (h : n.kids.get? i = some c) : n.setKid i c = n := by
  cases n with
  | mk tg l ow e cl s ks =>
    show TNode.withKids _ (ks.set i c) = _
    rw [set_get?_self ks i c h]
    rfl

theorem applyGoF_le (ps : Pass) : ∀ (fuel f2 : Nat) (call : ApplyCall)
    (r : TNode × Nat × MatchSt × Bool × Bool), fuel ≤ f2 →
    applyGoF fuel ps call = some r → applyGoF f2 ps call = some r := by
  intro fuel
  induction fuel with
  | zero =>
    intro f2 call r _ h
    simp [applyGoF] at h
  | succ f ih =>
    intro f2 call r hle h
    cases f2 with
    | zero => exact absurd hle (by omega)
    | succ q =>
    have hle2 : f ≤ q := by omega
    cases call with
    | node m n =>
      simp only [applyGoF] at h ⊢
      by_cases ht : (n.tag == ErrorTok || n.tag == LiftTok) = true
      · rw [if_pos ht] at h ⊢
        exact h
      · rw [if_neg ht] at h ⊢
        rcases hx : applyGoF f ps
            (.loop (runHook (findHook ps.preTok n.tag) n).1 0
              (runHook (findHook ps.preTok n.tag) n).2 m false false)
          with _ | ⟨n2, ch2, m2, pe, pl⟩
        · simp only [hx] at h
          cases h
        · simp only [hx] at h
          simp only [ih q _ _ hle2 hx]
          exact h
    | child m n it =>
      simp only [applyGoF] at h ⊢
      rcases hg : n.kids.get? it with _ | c
      · simp only [hg] at h
        cases h
      · simp only [hg] at h ⊢
        rcases hx : applyGoF f ps (.node m c) with _ | ⟨c1, ch, m1, pe, pl⟩
        · simp only [hx] at h
          cases h
        · simp only [hx] at h
          simp only [ih q _ _ hle2 hx]
          exact h
    | loop n it changes m peA plA =>
      simp only [applyGoF] at h ⊢
      by_cases hend : (it == n.kids.length) = true
      · rw [if_pos hend] at h ⊢
        exact h
      rw [if_neg hend] at h ⊢
      rcases hg : n.kids.get? it with _ | c
      · simp only [hg] at h
        cases h
      simp only [hg] at h ⊢
      by_cases hct : (c.tag == ErrorTok || c.tag == LiftTok) = true
      · rw [if_pos hct] at h ⊢
        exact ih q _ _ hle2 h
      rw [if_neg hct] at h ⊢
      rcases hx : (if ps.bu then applyGoF f ps (.child m n it)
          else some (n, 0, m, false, false)) with _ | ⟨nB, chB, mB, peB, plB⟩
      · simp only [hx] at h
        cases h
      simp only [hx] at h
      have hx2 : (if ps.bu then applyGoF q ps (.child m n it)
          else some (n, 0, m, false, false)) = some (nB, chB, mB, peB, plB) := by
        by_cases hb : ps.bu = true
        · rw [if_pos hb] at hx ⊢
          exact ih q _ _ hle2 hx
        · rw [if_neg hb] at hx ⊢
          exact hx
      simp only [hx2]
      set s := stepGo ps.rules nB it (changes + chB) mB with hs
      by_cases ho : ps.once = true
      · rw [if_pos ho] at h ⊢
        rcases hy : (if ps.td && (s.replaced != 0) then applyGoF f ps
              (.kids s.n s.it (max s.replaced 1).toNat s.changes s.m)
            else some (s.n, s.changes, s.m, false, false))
            with _ | ⟨n2, ch2, m2, peK, plK⟩
        · simp only [hy] at h
          cases h
        · simp only [hy] at h
          have hy2 : (if ps.td && (s.replaced != 0) then applyGoF q ps
                (.kids s.n s.it (max s.replaced 1).toNat s.changes s.m)
              else some (s.n, s.changes, s.m, false, false)) =
              some (n2, ch2, m2, peK, plK) := by
            by_cases htd : (ps.td && (s.replaced != 0)) = true
            · rw [if_pos htd] at hy ⊢
              exact ih q _ _ hle2 hy
            · rw [if_neg htd] at hy ⊢
              exact hy
          simp only [hy2]
          exact ih q _ _ hle2 h
      · rw [if_neg ho] at h ⊢
        by_cases hrep : s.replaced ≥ 0
        · rw [if_pos hrep] at h ⊢
          exact ih q _ _ hle2 h
        · rw [if_neg hrep] at h ⊢
          rcases hy : (if ps.td then applyGoF f ps (.child s.m s.n s.it)
              else some (s.n, 0, s.m, false, false))
              with _ | ⟨n2, ch2, m2, peT, plT⟩
          · simp only [hy] at h
            cases h
          · simp only [hy] at h
            have hy2 : (if ps.td then applyGoF q ps (.child s.m s.n s.it)
                else some (s.n, 0, s.m, false, false)) =
                some (n2, ch2, m2, peT, plT) := by
              by_cases htd : ps.td = true
              · rw [if_pos htd] at hy ⊢
                exact ih q _ _ hle2 hy
              · rw [if_neg htd] at hy ⊢
                exact hy
            simp only [hy2]
            exact ih q _ _ hle2 h
    | kids n it count changes m =>
      simp only [applyGoF] at h ⊢
      cases count with
      | zero => exact h
      | succ cnt =>
        rcases hx : applyGoF f ps (.child m n it)
          with _ | ⟨n1, ch, m1, pe, pl⟩
        · simp only [hx] at h
          cases h
        simp only [hx] at h
        simp only [ih q _ _ hle2 hx]
        rcases hy : applyGoF f ps (.kids n1 (it + 1) cnt (changes + ch) m1)
          with _ | ⟨n2, ch2, m2, pe2, pl2⟩
        · simp only [hy] at h
          cases h
        simp only [hy] at h
        simp only [ih q _ _ hle2 hy]
        exact h

theorem liftGoF_le : ∀ (fuel f2 : Nat) (call : LiftCall)
    (r : TNode × List TNode × Bool × Bool), fuel ≤ f2 →
    liftGoF fuel call = some r → liftGoF f2 call = some r := by
  intro fuel
  induction fuel with
  | zero =>
    intro f2 call r _ h
    simp [liftGoF] at h
  | succ f ih =>
    intro f2 call r hle h
    cases f2 with
    | zero => exact absurd hle (by omega)
    | succ q =>
    have hle2 : f ≤ q := by omega
    cases call with
    | node n =>
      simp only [liftGoF] at h ⊢
      exact ih q _ _ hle2 h
    | kids n it =>
      simp only [liftGoF] at h ⊢
      by_cases hend : (it == n.kids.length) = true
      · rw [if_pos hend] at h ⊢
        exact h
      rw [if_neg hend] at h ⊢
      rcases hg : n.kids.get? it with _ | c
      · simp only [hg] at h
        cases h
      simp only [hg] at h ⊢
      rcases hx : liftGoF f (.node c) with _ | ⟨c1, lifted0, peC, plC⟩
      · simp only [hx] at h
        cases h
      simp only [hx] at h
      simp only [ih q _ _ hle2 hx]
      split at h
      · cases h
      · rename_i n2 it2 spliced ulHere peE plE hp
        split at h
        · cases h
        · rename_i n3 ulRest peR plR hz
          simp only [ih q _ _ hle2 hz]
          exact h

theorem sizeOf_kid_lt (n : TNode) (c : TNode) (h : c ∈ n.kids) :
    sizeOf c < sizeOf n := by
  cases n with
  | mk tg l ow e cl st ks =>
    have h1 : sizeOf c < sizeOf ks := List.sizeOf_lt_of_mem h
    have h2 : sizeOf ks < sizeOf (TNode.mk tg l ow e cl st ks) := by
      simp [TNode.mk.sizeOf_spec] <;> omega
    omega

theorem applyZero (ps : Pass) (hr : ps.rules = []) (hpre : ps.preTok = [])
    (hpost : ps.postTok = []) :
    ∀ (n : TNode) (m : MatchSt), ∃ fuel,
      applyGoF fuel ps (.node m n) = some (n, 0, m, false, false) := by
  suffices H : ∀ (s : Nat) (n : TNode) (m : MatchSt), sizeOf n < s →
      ∃ fuel, applyGoF fuel ps (.node m n) = some (n, 0, m, false, false) by
    exact fun n m => H (sizeOf n + 1) n m (by omega)
  intro s
  induction s with
  | zero =>
    intro n m h
    exact absurd h (by omega)
  | succ s ihs =>
    intro n m hsz
    by_cases ht : (n.tag == ErrorTok || n.tag == LiftTok) = true
    · refine ⟨0 + 1, ?_⟩
      simp only [applyGoF]
      rw [if_pos ht]
    · have hloop : ∀ (d it changes : Nat) (m2 : MatchSt) (peA plA : Bool),
          it + d = n.kids.length → ∃ fuel,
            applyGoF fuel ps (.loop n it changes m2 peA plA) =
              some (n, changes, m2, peA, plA) := by
        intro d
        induction d with
        | zero =>
          intro it changes m2 peA plA hit
          refine ⟨0 + 1, ?_⟩
          simp only [applyGoF]
          rw [if_pos (by simp only [beq_iff_eq]; omega)]
        | succ d ihd =>
          intro it changes m2 peA plA hit
          have hlt : it < n.kids.length := by omega
          obtain ⟨c, hg⟩ : ∃ c, n.kids.get? it = some c := by
            cases hgg : n.kids.get? it with
            | none => exact absurd (List.get?_eq_none.mp hgg) (by omega)
            | some c => exact ⟨c, rfl⟩
          obtain ⟨fr, hfr⟩ := ihd (it + 1) changes m2 peA plA (by omega)
          by_cases hct : (c.tag == ErrorTok || c.tag == LiftTok) = true
          · refine ⟨fr + 1, ?_⟩
            simp only [applyGoF]
            rw [if_neg (by simp only [beq_iff_eq]; omega)]
            simp only [hg]
            rw [if_pos hct]
            exact hfr
          · have hcsz : sizeOf c < s := by
              have := sizeOf_kid_lt n c (List.get?_mem hg)
              omega
            obtain ⟨fc0, hfc⟩ := ihs c m2 hcsz
            have hch : applyGoF (fc0 + 1) ps (.child m2 n it) =
                some (n, 0, m2, false, false) := by
              simp only [applyGoF, hg, hfc]
              rw [setKid_self n it c hg]
              rfl
            have hkd1 : applyGoF (fc0 + 1 + 1) ps (.kids n it 1 changes m2) =
                some (n, changes, m2, false, false) := by
              simp only [applyGoF, hg, hfc]
              rw [setKid_self n it c hg]
              rfl
            have main : ∀ F : Nat, fc0 + 1 + 1 ≤ F → fr ≤ F →
                applyGoF (F + 1) ps (.loop n it changes m2 peA plA) =
                  some (n, changes, m2, peA, plA) := by
              intro F hF1 hF2
              simp only [applyGoF]
              rw [if_neg (by simp only [beq_iff_eq]; omega)]
              simp only [hg]
              rw [if_neg hct]
              have hbuF : (if ps.bu then applyGoF F ps (.child m2 n it)
                  else some (n, 0, m2, false, false)) =
                  some (n, 0, m2, false, false) := by
                by_cases hb : ps.bu = true
                · rw [if_pos hb]
                  exact applyGoF_le ps (fc0 + 1) _ _ _ (by omega) hch
                · rw [if_neg hb]
              simp only [hbuF]
              rw [hr]
              simp only [stepGo, Nat.add_zero, Bool.or_false]
              by_cases ho : ps.once = true
              · rw [if_pos ho]
                have hyF : (if ps.td && (((-1 : Int)) != 0) then
                      applyGoF F ps
                        (.kids n it (max (-1 : Int) 1).toNat changes m2)
                    else some (n, changes, m2, false, false)) =
                    some (n, changes, m2, false, false) := by
                  by_cases htd : (ps.td && (((-1 : Int)) != 0)) = true
                  · rw [if_pos htd]
                    rw [show (max (-1 : Int) 1).toNat = 1 from rfl]
                    exact applyGoF_le ps (fc0 + 1 + 1) _ _ _ hF1 hkd1
                  · rw [if_neg htd]
                simp only [hyF]
                rw [if_neg (show ¬((-1 : Int) ≥ 0) by decide)]
                simp only [Bool.or_false]
                exact applyGoF_le ps fr _ _ _ hF2 hfr
              · rw [if_neg ho]
                rw [if_neg (show ¬((-1 : Int) ≥ 0) by decide)]
                have hyF : (if ps.td then applyGoF F ps (.child m2 n it)
                    else some (n, 0, m2, false, false)) =
                    some (n, 0, m2, false, false) := by
                  by_cases htd : ps.td = true
                  · rw [if_pos htd]
                    exact applyGoF_le ps (fc0 + 1) _ _ _ (by omega) hch
                  · rw [if_neg htd]
                simp only [hyF]
                simp only [Nat.add_zero, Bool.or_false]
                exact applyGoF_le ps fr _ _ _ hF2 hfr
            exact ⟨fc0 + fr + 4 + 1, main (fc0 + fr + 4) (by omega) (by omega)⟩
      obtain ⟨fl, hfl⟩ := hloop n.kids.length 0 0 m false false (by omega)
      refine ⟨fl + 1, ?_⟩
      simp only [applyGoF]
      rw [if_neg ht]
      have hpre2 : runHook (findHook ps.preTok n.tag) n = (n, 0) := by
        rw [hpre]; rfl
      have hpost2 : runHook (findHook ps.postTok n.tag) n = (n, 0) := by
        rw [hpost]; rfl
      simp only [hpre2, hfl, hpost2]

theorem liftZero : ∀ (n : TNode), liftStrict n = false →
    ∃ fuel, liftGoF fuel (.node n) = some (n, [], false, false) := by
  suffices H : ∀ (s : Nat) (n : TNode), sizeOf n < s → liftStrict n = false →
      ∃ fuel, liftGoF fuel (.node n) = some (n, [], false, false) by
    exact fun n hl => H (sizeOf n + 1) n (by omega) hl
  intro s
  induction s with
  | zero =>
    intro n h
    exact absurd h (by omega)
  | succ s ihs =>
    intro n hsz hlf
    have hloop : ∀ (d it : Nat), it + d = n.kids.length → ∃ fuel,
        liftGoF fuel (.kids n it) = some (n, [], false, false) := by
      intro d
      induction d with
      | zero =>
        intro it hit
        refine ⟨0 + 1, ?_⟩
        simp only [liftGoF]
        rw [if_pos (by simp only [beq_iff_eq]; omega)]
      | succ d ihd =>
        intro it hit
        have hlt : it < n.kids.length := by omega
        obtain ⟨c, hg⟩ : ∃ c, n.kids.get? it = some c := by
          cases hgg : n.kids.get? it with
          | none => exact absurd (List.get?_eq_none.mp hgg) (by omega)
          | some c => exact ⟨c, rfl⟩
        have hself : liftSelf c = false :=
          (liftStrict_eq_false n).mp hlf c (List.get?_mem hg)
        have htagc : (c.tag == LiftTok) = false := by
          rw [liftSelf, hasTagSelf_eq_tag_or] at hself
          exact (Bool.or_eq_false_iff.mp hself).1
        have hstrict : liftStrict c = false := by
          rw [liftSelf, hasTagSelf_eq_tag_or] at hself
          exact (Bool.or_eq_false_iff.mp hself).2
        have hcsz : sizeOf c < s := by
          have := sizeOf_kid_lt n c (List.get?_mem hg)
          omega
        obtain ⟨fc, hfc⟩ := ihs c hcsz hstrict
        obtain ⟨fr, hfr⟩ := ihd (it + 1) (by omega)
        have main : ∀ F : Nat, fc ≤ F → fr ≤ F →
            liftGoF (F + 1) (.kids n it) = some (n, [], false, false) := by
          intro F hF1 hF2
          simp only [liftGoF]
          rw [if_neg (by simp only [beq_iff_eq]; omega)]
          simp only [hg]
          simp only [liftGoF_le fc F _ _ hF1 hfc]
          rw [setKid_self n it c hg]
          simp only [htagc, Bool.false_eq_true, if_false]
          rw [show foldEsc n false false = (n, false, false) from rfl]
          simp only [processEnvs]
          simp only [Bool.not_false, Bool.and_self, if_true]
          simp only [liftGoF_le fr F _ _ hF2 hfr]
          rfl
        exact ⟨fc + fr + 1, main (fc + fr) (by omega) (by omega)⟩
    obtain ⟨fl, hfl⟩ := hloop n.kids.length 0 (by omega)
    refine ⟨fl + 1, ?_⟩
    simp only [liftGoF]
    exact hfl

/-- C7: running a pass with zero rules, no once-per-run hooks and no
per-token hooks on a tree with no `Lift` node strictly below any of its
nodes returns the tree structurally unchanged and reports `changes = 0`,
`iterations = 1` (for some fuel, i.e. the C++ run terminates so).  The
unconditional claim over EVERY tree is refuted by `claim7_emptyPass_cex`:
a pending `Lift` envelope is rewritten or aborts the run. -/
theorem claim7_emptyPass (ps : Pass) (h1 : ps.rules = [])
    (h2 : ps.preOnce = none) (h3 : ps.postOnce = none)
    (h4 : ps.preTok = []) (h5 : ps.postTok = [])
    (t : TNode) (hl : liftStrict t = false) :
    ∃ fuel, runF fuel ps t = .ok (t, 1, 0) := by
  obtain ⟨fa, hfa⟩ := applyZero ps h1 h4 h5 t ⟨t, false, []⟩
  obtain ⟨fb, hfb⟩ := liftZero t hl
  have main : ∀ F : Nat, fa ≤ F → fb ≤ F →
      runF (F + 1) ps t = .ok (t, 1, 0) := by
    intro F hF1 hF2
    have hpre : runHook ps.preOnce t = (t, 0) := by rw [h2]; rfl
    show runGo (F + 1) ps ⟨(runHook ps.preOnce t).1, false, []⟩
      (runHook ps.preOnce t).1 0 (runHook ps.preOnce t).2 = .ok (t, 1, 0)
    simp only [hpre]
    simp only [runGo]
    have hfa2 : applyF F ps ⟨t, false, []⟩ t =
        some (t, 0, ⟨t, false, []⟩, false, false) :=
      applyGoF_le ps fa _ _ _ hF1 hfa
    simp only [hfa2]
    have hfb2 : liftF F t = some (t, [], false, false) :=
      liftGoF_le fb _ _ _ hF2 hfb
    simp only [hfb2]
    simp only [List.isEmpty_nil, Bool.not_true, Bool.false_eq_true, if_false]
    by_cases ho : ps.once = true
    · rw [if_pos ho]
      show finishRun ps t (0 + 1) (0 + 0) = .ok (t, 1, 0)
      simp only [finishRun, h3]
    · rw [if_neg ho]
      rw [if_neg (show ¬((0 : Nat) > 0) by omega)]
      show finishRun ps t (0 + 1) (0 + 0) = .ok (t, 1, 0)
      simp only [finishRun, h3]
  exact ⟨fa + fb + 1, main (fa + fb) (by omega) (by omega)⟩

theorem claim7_emptyPass_witness :
    ∃ fuel, runF fuel {} (leafN tokA) = .ok (leafN tokA, 1, 0) :=
  claim7_emptyPass {} rfl rfl rfl rfl rfl (leafN tokA) (by decide)

/-- C7 counterexample against the claim as stated (over every tree): the
tree `cex7Tree` holds a `Lift` envelope destined for a tag no ancestor
carries, so no run of the hook-free zero-rule pass ever returns it
unchanged with one iteration and zero changes - every successful run
returns a tree with no `Lift` strictly below the root, which `cex7Tree`
is not. -/
theorem claim7_emptyPass_cex :
    liftStrict cex7Tree = true ∧
    ∀ fuel, runF fuel {} cex7Tree ≠ .ok (cex7Tree, 1, 0) := by
  refine ⟨by decide, ?_⟩
  intro fuel h
  have h2 : runGo fuel {} ⟨cex7Tree, false, []⟩ cex7Tree 0 0 =
      .ok (cex7Tree, 1, 0) := h
  have := runGo_ok_noLift fuel {} ⟨cex7Tree, false, []⟩ cex7Tree 0 0
    cex7Tree 1 0 rfl h2
  exact absurd this (by decide)

theorem claim4_step_witness :
    ruleNoChange.pat c4n.kids 0 c4n.kids.length c4m.reset = (true, 1, c4m) ∧
      ruleNoChange.eff c4m = some (leafN NoChangeTok) ∧
      (leafN NoChangeTok).tag = NoChangeTok ∧
      stepGo [ruleNoChange] c4n 0 0 c4m = stepGo [] c4n 0 0 c4m :=
  ⟨rfl, rfl, rfl,
    claim4_step.1 ruleNoChange [] c4n 0 0 c4m 1 c4m (leafN NoChangeTok)
      rfl rfl rfl⟩

end Trieste
